import Mathlib

/-!
Verification of the aria-at-harness test-execution engine against its
specification.  The JavaScript sources under src/agent/at-driver.js and
src/runner/driver-test-runner.js are shallowly embedded: strings are
modelled as lists of characters where character-level processing matters,
stateful protocol traffic is modelled as explicit request traces, and
fallible operations return Except values.
-/

set_option maxRecDepth 4000

namespace AriaAT

/-- JS word character class, as used by the word-boundary and word constructs
of the regular expressions in driver-test-runner.js: ASCII letters, digits and
underscore. -/
def isWordChar (c : Char) : Bool :=
  c.isAlpha || c.isDigit || c = '_'

/-- Characters the validator splits keypress ids on: the character class of
underscore, plus and comma in validateKeysFromCommand. -/
def isDelim (c : Char) : Bool :=
  c = '_' || c = '+' || c = ','

/-- Boolean prefix test on character lists. -/
def startsWithL : List Char → List Char → Bool
  | [], _ => true
  | _ :: _, [] => false
  | p :: ps, c :: cs => p = c && startsWithL ps cs

def pageDownPat : List Char := "PAGE_DOWN".toList
def pageDownRep : List Char := "PAGEDOWN".toList
def pageUpPat : List Char := "PAGE_UP".toList
def pageUpRep : List Char := "PAGEUP".toList
def arrowPat : List Char := "_ARROW".toList

/-- Replacement of the first match of the PAGE underscore DOWN-or-UP pattern,
as performed by the first replace call of validateKeysFromCommand and
atKeysFromCommand: the leftmost occurrence of PAGE_DOWN or PAGE_UP loses its
inner underscore; the rest of the string is untouched. -/
def replacePage : List Char → List Char
  | [] => []
  | c :: cs =>
    if startsWithL pageDownPat (c :: cs) then pageDownRep ++ (c :: cs).drop pageDownPat.length
    else if startsWithL pageUpPat (c :: cs) then pageUpRep ++ (c :: cs).drop pageUpPat.length
    else c :: replacePage cs

/-- JS String.replace with a plain string argument replaces only the first
occurrence: the first plus sign becomes an underscore. -/
def replacePlusFirst : List Char → List Char
  | [] => []
  | c :: cs => if c = '+' then '_' :: cs else c :: replacePlusFirst cs

/-- Global removal of the _ARROW pattern (replace with the g flag and an empty
replacement), scanning left to right and continuing after each match. -/
def removeArrow : List Char → List Char
  | [] => []
  | c :: cs =>
    if startsWithL arrowPat (c :: cs) then removeArrow ((c :: cs).drop arrowPat.length)
    else c :: removeArrow cs
termination_by l => l.length
decreasing_by
  · simp only [List.length_drop, List.length_cons]
    exact Nat.sub_lt (Nat.succ_pos _) (by decide)
  · simp

/-- The id normalization performed at the top of the keypress loop of
validateKeysFromCommand before any check runs. -/
def transformId (id : List Char) : List Char :=
  removeArrow (replacePlusFirst (replacePage id))

/-- A word-boundary position: start or end of input, or a neighbouring
non-word character. -/
def afterBoundary : List Char → Bool
  | [] => true
  | c :: _ => !isWordChar c

def prevBoundary : Option Char → Bool
  | none => true
  | some p => !isWordChar p

/-- Scanner for a JS regex of the shape word-boundary, literal word,
word-boundary, carrying the previous character for the left boundary test. -/
def wbAux (w : List Char) : Option Char → List Char → Bool
  | prev, [] => prevBoundary prev && startsWithL w [] && w = []
  | prev, c :: cs =>
    (prevBoundary prev && startsWithL w (c :: cs) && afterBoundary ((c :: cs).drop w.length))
    || wbAux w (some c) cs

def wbTest (w : List Char) (s : List Char) : Bool := wbAux w none s

/-- JS String.split on the character class of underscore, plus and comma:
empty parts are kept, and the empty string yields one empty part. -/
def splitDelims : List Char → List (List Char)
  | [] => [[]]
  | c :: cs =>
    if isDelim c then [] :: splitDelims cs
    else
      match splitDelims cs with
      | [] => [[c]]
      | p :: ps => (c :: p) :: ps

def toUpperL (l : List Char) : List Char := l.map Char.toUpper
def toLowerL (l : List Char) : List Char := l.map Char.toLower

/-- The seleniumKeysMap table of src/agent/at-driver.js: named keys mapped to
WebDriver control code points. -/
def seleniumKeysMap : List (String × String) := [
  ("NULL", ""), ("CANCEL", ""), ("HELP", ""),
  ("BACKSPACE", ""), ("TAB", ""), ("CLEAR", ""),
  ("RETURN", ""), ("ENTER", ""), ("SHIFT", ""),
  ("CONTROL", ""), ("ALT", ""), ("PAUSE", ""),
  ("ESCAPE", ""), ("SPACE", ""), ("PAGE_UP", ""),
  ("PAGE_DOWN", ""), ("END", ""), ("HOME", ""),
  ("LEFT", ""), ("UP", ""), ("RIGHT", ""),
  ("DOWN", ""), ("INSERT", ""), ("DELETE", ""),
  ("SEMICOLON", ""), ("EQUALS", ""),
  ("NUMPAD0", ""), ("NUMPAD1", ""), ("NUMPAD2", ""),
  ("NUMPAD3", ""), ("NUMPAD4", ""), ("NUMPAD5", ""),
  ("NUMPAD6", ""), ("NUMPAD7", ""), ("NUMPAD8", ""),
  ("NUMPAD9", ""), ("MULTIPLY", ""), ("ADD", ""),
  ("SEPARATOR", ""), ("SUBTRACT", ""), ("DECIMAL", ""),
  ("DIVIDE", ""),
  ("F1", ""), ("F2", ""), ("F3", ""), ("F4", ""),
  ("F5", ""), ("F6", ""), ("F7", ""), ("F8", ""),
  ("F9", ""), ("F10", ""), ("F11", ""), ("F12", ""),
  ("META", ""), ("COMMAND", ""), ("ZENKAKU_HANKAKU", "")]

/-- Modelled from the spec: the runner module imports webDriverCodePoints from
its sibling at-driver.js file, which is not among the provided sources.  The
spec describes it as a fixed table of named keys (ENTER, TAB, SHIFT, arrows,
function keys, numpad keys and so on) mapped to fixed single-character control
codes, case-insensitively matched.  The in-tree agent/at-driver.js carries the
same table under the name seleniumKeysMap, and the validator comment states
that PAGE_DOWN and PAGE_UP are reassembled to the single tokens PAGEDOWN and
PAGEUP before lookup, so those spellings are recognized as well.  Keys are
uppercase character lists. -/
def webDriverCodePoints : List (List Char × String) :=
  (seleniumKeysMap.map (fun e => (e.1.toList, e.2))) ++
  [("PAGEUP".toList, ""), ("PAGEDOWN".toList, "")]

def lookupCodePoint (k : List Char) : Option String :=
  (webDriverCodePoints.find? (fun e => e.1 == k)).map (fun e => e.2)

/-- Single-quote character, used by the validator error messages. -/
def sq : String := String.singleton (Char.ofNat 39)

def quoteS (s : String) : String := sq ++ s ++ sq

def slashErr (tid : List Char) : String :=
  quoteS (String.mk tid) ++ " cannot contain " ++ quoteS "/" ++ "."

def parenErr (tid : List Char) : String :=
  quoteS (String.mk tid) ++ " cannot contain " ++ quoteS "(" ++ " or " ++ quoteS ")" ++ "."

def orErr (tid : List Char) : String :=
  quoteS (String.mk tid) ++ " cannot contain " ++ quoteS "or" ++ "."

def followedErr (tid : List Char) : String :=
  quoteS (String.mk tid) ++ " cannot contain " ++ quoteS "followed" ++ " or " ++
  quoteS "followed by" ++ "."

def partErr (p tid : List Char) : String :=
  quoteS (String.mk p) ++ " of " ++ quoteS (String.mk tid) ++
  " is not a recognized key - use single characters or \"Normalized\" values from https://w3c.github.io/webdriver/#keyboard-actions"

def orWord : List Char := "or".toList
def followedWord : List Char := "followed".toList

/-- The body of the part loop of validateKeysFromCommand: a part errors when it
is not a single character and its uppercase form is not a recognized named key. -/
def partHasError (p : List Char) : Bool :=
  decide (p.length ≠ 1) && (lookupCodePoint (toUpperL p)).isNone

/-- The errors contributed by one keypress id inside validateKeysFromCommand,
in push order: the slash, parenthesis, word-or and word-followed checks on the
normalized id, then one error per unrecognized part of the delimiter split. -/
def errorsForId (id : List Char) : List String :=
  let tid := transformId id
  (if tid.contains '/' then [slashErr tid] else []) ++
  (if tid.contains '(' || tid.contains ')' then [parenErr tid] else []) ++
  (if wbTest orWord tid then [orErr tid] else []) ++
  (if wbTest followedWord tid then [followedErr tid] else []) ++
  ((splitDelims tid).filter partHasError).map (fun p => partErr p tid)

structure Keypress where
  id : List Char
deriving DecidableEq

structure Command where
  id : String
  keypresses : List Keypress
  settings : Option String
deriving DecidableEq

/-- The object literal validateKeysFromCommand returns: a value field or an
errors field, each possibly absent. -/
structure ValidationOutcome where
  value : Option Command
  errors : Option (List String)
deriving DecidableEq

/-- validateKeysFromCommand of src/runner/driver-test-runner.js: the errors
array is pushed to across every keypress of the command, and only at the end
is the choice made between returning the errors and returning the value. -/
def validateKeysFromCommand (command : Command) : ValidationOutcome :=
  let errs := command.keypresses.foldl (fun acc kp => acc ++ errorsForId kp.id) []
  if errs.length > 0 then ⟨none, some errs⟩ else ⟨some command, none⟩

theorem foldl_append_eq_flatMap (f : Keypress → List String) (l : List Keypress) :
    ∀ init : List String,
      l.foldl (fun acc kp => acc ++ f kp) init = init ++ l.flatMap f := by
  induction l with
  | nil => intro init; simp
  | cons kp rest ih =>
    intro init
    simp only [List.foldl_cons, List.flatMap_cons, ih, List.append_assoc]

/-- C3: for every Command, validateKeysFromCommand returns either a validated
Command or a non-empty list of error strings, never both; and when errors
exist the returned list is the concatenation of the errors of every keypress
of the Command, so validation is not fail-fast. -/
theorem validateKeysFromCommand_outcome (command : Command) :
    (validateKeysFromCommand command = ⟨some command, none⟩
      ∧ command.keypresses.flatMap (fun kp => errorsForId kp.id) = [])
    ∨ (∃ es, validateKeysFromCommand command = ⟨none, some es⟩ ∧ es ≠ []
      ∧ es = command.keypresses.flatMap (fun kp => errorsForId kp.id)) := by
  unfold validateKeysFromCommand
  rw [foldl_append_eq_flatMap, List.nil_append]
  by_cases h : (command.keypresses.flatMap (fun kp => errorsForId kp.id)).length > 0
  · right
    refine ⟨command.keypresses.flatMap (fun kp => errorsForId kp.id), ?_, ?_, rfl⟩
    · rw [if_pos h]
    · intro hnil
      rw [hnil] at h
      simp at h
  · left
    have hnil : command.keypresses.flatMap (fun kp => errorsForId kp.id) = [] := by
      cases heq : command.keypresses.flatMap (fun kp => errorsForId kp.id) with
      | nil => rfl
      | cons a l => rw [heq] at h; simp at h
    rw [hnil]
    simp

/-- One key of the ATKey class of src/agent/at-driver.js: the textual key and
its protocol-level mapping, computed in the constructor by looking up the
uppercased key in seleniumKeysMap with the raw key itself as fallback. -/
structure ATKeyT where
  key : String
  mapped : String
deriving DecidableEq

def lookupSelenium (k : String) : Option String :=
  (seleniumKeysMap.find? (fun e => e.1 == k)).map (fun e => e.2)

/-- Character-wise ASCII upper-casing of a string, the behaviour of the JS
toUpperCase calls on the ASCII key names involved. -/
def toUpperS (s : String) : String := String.mk (toUpperL s.toList)

/-- Character-wise ASCII lower-casing of a string. -/
def toLowerS (s : String) : String := String.mk (toLowerL s.toList)

def ATKey.key (k : String) : ATKeyT :=
  ⟨k, (lookupSelenium (toUpperS k)).getD k⟩

structure ATKeyChord where
  keys : List ATKeyT
deriving DecidableEq

structure ATKeySequence where
  sequence : List ATKeyChord
deriving DecidableEq

def ATKey.chord (keys : List ATKeyT) : ATKeyChord := ⟨keys⟩

/-- The three run-time shapes accepted by the variadic ATKey.sequence. -/
inductive ATItem where
  | key (x : ATKeyT)
  | chord (c : ATKeyChord)
  | seq (s : ATKeySequence)
deriving DecidableEq

def ATItem.isSeq : ATItem → Bool
  | .seq _ => true
  | _ => false

/-- ATKey.sequence of src/agent/at-driver.js: a bare key becomes a singleton
chord, a chord is kept, and a nested sequence is spliced, in argument order. -/
def ATKey.sequence (items : List ATItem) : ATKeySequence :=
  ⟨items.flatMap (fun item =>
    match item with
    | .chord c => [c]
    | .key x => [ATKey.chord [x]]
    | .seq s => s.sequence)⟩

/-- Protocol-level and browser-level actions the agent can issue, recorded as
a trace. -/
inductive Request where
  | pressKeys (keys : List String)
  | setSettings (name : String) (value : Bool)
  | navigate (url : String)
  | documentReady
  | clickWhenPresent (selector : String)
  | getCapabilities
deriving DecidableEq

/-- ATDriver.sendKeys: for each chord of the normalized sequence, the inner
loop iterates over the keys of the chord and issues one interaction.pressKeys
request per key, each request carrying the mapped values of the whole chord. -/
def sendKeysRequests (items : List ATItem) : List Request :=
  (ATKey.sequence items).sequence.flatMap (fun chord =>
    chord.keys.map (fun _ => Request.pressKeys (chord.keys.map (fun k => k.mapped))))

/-- C7: ATKey.sequence flattens nested sequences: for keys or chords a and b
and a chord c, sequence (sequence (a, b), c) equals sequence (a, b, c),
yielding the same chords in the same order. -/
theorem ATKey_sequence_flattens (a b : ATItem) (c : ATKeyChord)
    (ha : a.isSeq = false) (hb : b.isSeq = false) :
    ATKey.sequence [.seq (ATKey.sequence [a, b]), .chord c] =
      ATKey.sequence [a, b, .chord c] := by
  cases a <;> cases b <;> simp [ATKey.sequence]

/-- Witness for C7 at the concrete key a and chord of tab. -/
theorem ATKey_sequence_flattens_witness :
    (ATItem.key (ATKey.key "a")).isSeq = false
    ∧ (ATItem.chord (ATKey.chord [ATKey.key "tab"])).isSeq = false
    ∧ ATKey.sequence [.seq (ATKey.sequence [.key (ATKey.key "a"),
        .chord (ATKey.chord [ATKey.key "tab"])]), .chord (ATKey.chord [ATKey.key "b"])] =
      ATKey.sequence [.key (ATKey.key "a"), .chord (ATKey.chord [ATKey.key "tab"]),
        .chord (ATKey.chord [ATKey.key "b"])] :=
  ⟨rfl, rfl, ATKey_sequence_flattens _ _ _ rfl rfl⟩

/-- C1: at the failing input, a chord of the two keys insert and space,
sendKeys issues two identical interaction.pressKeys requests, one per key of
the chord, instead of the single request per chord that the claim states. -/
theorem sendKeys_two_requests_for_two_key_chord :
    sendKeysRequests [.chord (ATKey.chord [ATKey.key "insert", ATKey.key "space"])] =
      [Request.pressKeys ["", ""], Request.pressKeys ["", ""]]
    ∧ (sendKeysRequests
        [.chord (ATKey.chord [ATKey.key "insert", ATKey.key "space"])]).length = 2 := by
  constructor
  · decide
  · decide

/-- Whitespace test used to model the JS trim and whitespace regex classes. -/
def isWs (c : Char) : Bool := c.isWhitespace

/-- JS String.trim: whitespace stripped from both ends. -/
def trimL (l : List Char) : List Char :=
  ((l.dropWhile isWs).reverse.dropWhile isWs).reverse

/-- JS split on the underscore character, keeping empty parts. -/
def splitUnderscore : List Char → List (List Char)
  | [] => [[]]
  | c :: cs =>
    if c = '_' then [] :: splitUnderscore cs
    else
      match splitUnderscore cs with
      | [] => [[c]]
      | p :: ps => (c :: p) :: ps

/-- Global replacement of every plus sign with an underscore, as the mapper
does with a global regex (unlike the validator, which replaces only the first). -/
def replacePlusAll (l : List Char) : List Char :=
  l.map (fun c => if c = '+' then '_' else c)

def arrowWord : List Char := "arrow".toList

/-- Consume one optional whitespace character. -/
def dropOptWs : List Char → List Char
  | [] => []
  | c :: cs => if isWs c then cs else c :: cs

theorem dropOptWs_length_le (l : List Char) : (dropOptWs l).length ≤ l.length := by
  cases l with
  | nil => simp [dropOptWs]
  | cons c cs =>
    simp only [dropOptWs]
    by_cases h : isWs c
    · simp [h]
    · simp [h]

/-- Global replacement of the optional-whitespace arrow optional-whitespace
regex with the empty string: at each position a match consumes one optional
whitespace character, the letters arrow, and one optional trailing whitespace. -/
def removeArrowWord : List Char → List Char
  | [] => []
  | c :: cs =>
    if isWs c && startsWithL arrowWord cs then
      removeArrowWord (dropOptWs (cs.drop arrowWord.length))
    else if startsWithL arrowWord (c :: cs) then
      removeArrowWord (dropOptWs ((c :: cs).drop arrowWord.length))
    else c :: removeArrowWord cs
termination_by l => l.length
decreasing_by
  · exact Nat.lt_succ_of_le (Nat.le_trans (dropOptWs_length_le _)
      (by simp only [List.length_drop]; exact Nat.sub_le _ _))
  · exact Nat.lt_of_le_of_lt (dropOptWs_length_le _)
      (by simp only [List.length_drop, List.length_cons]
          exact Nat.sub_lt (Nat.succ_pos _) (by decide))
  · simp

def removeWsAll (l : List Char) : List Char := l.filter (fun c => !isWs c)

/-- atKeysFromCommand of src/runner/driver-test-runner.js: one chord per
keypress id; the id is page-normalized, every plus becomes an underscore, the
id is split on underscores, and each piece is trimmed, lower-cased, stripped
of the word arrow and of whitespace, and turned into an ATKey (with one more
lower-casing at construction). -/
def atKeysFromCommand (command : Command) : ATKeySequence :=
  ATKey.sequence (command.keypresses.map (fun kp =>
    ATItem.chord (ATKey.chord
      ((splitUnderscore (replacePlusAll (replacePage kp.id))).map (fun piece =>
        let s := removeWsAll (removeArrowWord (toLowerL (trimL piece)))
        ATKey.key (String.mk (toLowerL s)))))))

def enterCommand : Command := ⟨"c1", [⟨"ENTER".toList⟩], none⟩

theorem removeArrow_enter : removeArrow "ENTER".toList = "ENTER".toList := by
  simp [removeArrow, startsWithL, arrowPat]

theorem errorsForId_enter : errorsForId "ENTER".toList = [] := by
  have ht : transformId "ENTER".toList = "ENTER".toList := by
    have h1 : replacePlusFirst (replacePage "ENTER".toList) = "ENTER".toList := by decide
    rw [transformId, h1, removeArrow_enter]
  simp only [errorsForId, ht]
  decide

theorem removeArrowWord_enter : removeArrowWord "enter".toList = "enter".toList := by
  simp [removeArrowWord, startsWithL, arrowWord, isWs, dropOptWs]

theorem atKeysFromCommand_enter :
    atKeysFromCommand enterCommand = ⟨[ATKey.chord [ATKey.key "enter"]]⟩ := by
  have h1 : atKeysFromCommand enterCommand =
      ⟨[ATKey.chord [ATKey.key
        (String.mk (toLowerL (removeWsAll (removeArrowWord "enter".toList))))]]⟩ := rfl
  rw [h1, removeArrowWord_enter]
  decide

theorem validate_enter : validateKeysFromCommand enterCommand = ⟨some enterCommand, none⟩ := by
  have he : errorsForId ['E', 'N', 'T', 'E', 'R'] = [] := errorsForId_enter
  simp [validateKeysFromCommand, enterCommand, he]

/-- C9: the Command c1 with single keypress ENTER validates successfully, maps
to a KeySequence of exactly one chord containing the single key enter, and
sendKeys issues exactly one interaction.pressKeys request whose keys parameter
is the single mapped value U+E007. -/
theorem enter_end_to_end :
    (validateKeysFromCommand enterCommand).value = some enterCommand
    ∧ (validateKeysFromCommand enterCommand).errors = none
    ∧ atKeysFromCommand enterCommand = ⟨[ATKey.chord [ATKey.key "enter"]]⟩
    ∧ (ATKey.key "enter").mapped = ""
    ∧ sendKeysRequests [.seq (atKeysFromCommand enterCommand)] =
        [Request.pressKeys [""]] := by
  have hv : validateKeysFromCommand enterCommand = ⟨some enterCommand, none⟩ := validate_enter
  refine ⟨by rw [hv], by rw [hv], atKeysFromCommand_enter, by decide, ?_⟩
  rw [atKeysFromCommand_enter]
  decide

/-- JS String.trim on a string value. -/
def trimS (s : String) : String := String.mk (trimL s.toList)

/-- Case-insensitive comparison of a trimmed captured speech line against the
desired response, as in pressKeysToToggleSetting. -/
def lineMatches (desired : String) (line : String) : Bool :=
  toLowerS (trimS line) == toLowerS desired

/-- Accumulation of an unmatched trimmed line into the diagnostic buffer,
newline-separated once the buffer is non-empty. -/
def accumUnknown (acc : String) (line : String) : String :=
  (if acc.length ≠ 0 then acc ++ "\n" else acc) ++ line

/-- Sequential scan of one attempt of captured speech: stops at the first
matching line, accumulating every non-matching line seen before it. -/
def scanLines (desired : String) : String → List String → String × Bool
  | acc, [] => (acc, false)
  | acc, line :: rest =>
    if lineMatches desired line then (acc, true)
    else scanLines desired (accumUnknown acc (trimS line)) rest

def toggleErrMsg (desired unknown : String) : String :=
  "Unable to apply setting. Expected: \"" ++ desired ++ "\" Got: \"" ++ unknown ++ "\""

/-- The retry loop of pressKeysToToggleSetting over successive attempts; each
attempt sends the key sequence (seqReqs is the request trace of one send) and
then inspects the speech captured during that attempt. -/
def toggleGo (seqReqs : List Request) (desired : String) :
    String → List (List String) → List Request × Except String Unit
  | acc, [] => ([], .error (toggleErrMsg desired acc))
  | acc, attempt :: rest =>
    match scanLines desired acc attempt with
    | (_, true) => (seqReqs, .ok ())
    | (acc2, false) =>
      let r := toggleGo seqReqs desired acc2 rest
      (seqReqs ++ r.1, r.2)

/-- pressKeysToToggleSetting of src/runner/driver-test-runner.js: up to 2
total attempts (the toggle has two states); the speech captured during the
first and the possible second attempt are environment inputs. -/
def pressKeysToToggleSettingT (seqReqs : List Request) (desired : String)
    (a1 a2 : List String) : List Request × Except String Unit :=
  toggleGo seqReqs desired "" [a1, a2]

theorem scanLines_found_iff (desired : String) (ls : List String) : ∀ acc,
    (scanLines desired acc ls).2 = true ↔ ∃ l ∈ ls, lineMatches desired l = true := by
  induction ls with
  | nil => intro acc; simp [scanLines]
  | cons x rest ih =>
    intro acc
    by_cases h : lineMatches desired x
    · simp [scanLines, h]
    · simp only [Bool.not_eq_true] at h
      simp [scanLines, h, ih]

theorem scanLines_all_unmatched (desired : String) (ls : List String) : ∀ acc,
    (∀ l ∈ ls, lineMatches desired l = false) →
    scanLines desired acc ls =
      (ls.foldl (fun a l => accumUnknown a (trimS l)) acc, false) := by
  induction ls with
  | nil => intro acc _; simp [scanLines]
  | cons x rest ih =>
    intro acc h
    have hx : lineMatches desired x = false := h x (by simp)
    simp only [scanLines, hx, Bool.false_eq_true, if_false, List.foldl_cons]
    exact ih _ (fun l hl => h l (by simp [hl]))

/-- C4: pressKeysToToggleSetting returns successfully without a second attempt
when some line captured during the first attempt matches the desired response
case-insensitively; it makes at most 2 total attempts; and when no line of
either attempt matches, it fails with an error message carrying every
accumulated unmatched line of both attempts. -/
theorem pressKeysToToggleSetting_retry_spec (seqReqs : List Request) (desired : String)
    (a1 a2 : List String) :
    ((∃ l ∈ a1, lineMatches desired l = true) →
        pressKeysToToggleSettingT seqReqs desired a1 a2 = (seqReqs, .ok ()))
    ∧ ((pressKeysToToggleSettingT seqReqs desired a1 a2).1 = seqReqs
        ∨ (pressKeysToToggleSettingT seqReqs desired a1 a2).1 = seqReqs ++ seqReqs)
    ∧ ((∀ l ∈ a1 ++ a2, lineMatches desired l = false) →
        pressKeysToToggleSettingT seqReqs desired a1 a2 =
          (seqReqs ++ seqReqs, .error (toggleErrMsg desired
            ((a1 ++ a2).foldl (fun acc l => accumUnknown acc (trimS l)) "")))) := by
  rcases hsc1 : scanLines desired "" a1 with ⟨acc1, f1⟩
  cases f1 with
  | true =>
    refine ⟨fun _ => ?_, Or.inl ?_, fun hall => ?_⟩
    · simp [pressKeysToToggleSettingT, toggleGo, hsc1]
    · simp [pressKeysToToggleSettingT, toggleGo, hsc1]
    · exfalso
      have h2 := scanLines_all_unmatched desired a1 ""
        (fun l hl => hall l (List.mem_append_left _ hl))
      rw [hsc1] at h2
      exact Bool.true_eq_false.mp (congrArg Prod.snd h2)
  | false =>
    have hnm1 : ¬ ∃ l ∈ a1, lineMatches desired l = true := by
      intro hex
      have := (scanLines_found_iff desired a1 "").mpr hex
      rw [hsc1] at this
      exact Bool.false_ne_true this
    rcases hsc2 : scanLines desired acc1 a2 with ⟨acc2, f2⟩
    refine ⟨fun hex => absurd hex hnm1, ?_, fun hall => ?_⟩
    · cases f2 with
      | true => exact Or.inr (by simp [pressKeysToToggleSettingT, toggleGo, hsc1, hsc2])
      | false => exact Or.inr (by simp [pressKeysToToggleSettingT, toggleGo, hsc1, hsc2])
    · have h1 := scanLines_all_unmatched desired a1 ""
        (fun l hl => hall l (List.mem_append_left _ hl))
      rw [hsc1] at h1
      have hacc1 : acc1 = a1.foldl (fun a l => accumUnknown a (trimS l)) "" := by
        simpa using congrArg Prod.fst h1
      have h2 := scanLines_all_unmatched desired a2 acc1
        (fun l hl => hall l (List.mem_append_right _ hl))
      rw [hsc2] at h2
      have hacc2 : acc2 = a2.foldl (fun a l => accumUnknown a (trimS l)) acc1 := by
        simpa using congrArg Prod.fst h2
      have hf2 : f2 = false := by simpa using congrArg Prod.snd h2
      subst hf2
      simp only [pressKeysToToggleSettingT, toggleGo, hsc1, hsc2, List.append_nil]
      rw [hacc2, hacc1, ← List.foldl_append]

/-- Witness for C4: a first-attempt match returns after one attempt, and two
unmatched attempts produce the accumulated two-line error message. -/
theorem pressKeysToToggleSetting_retry_spec_witness :
    pressKeysToToggleSettingT [] "Browse mode" ["Browse mode"] [] = ([], .ok ())
    ∧ pressKeysToToggleSettingT [] "Browse mode" ["Focus mode"] ["beep"] =
        ([], .error "Unable to apply setting. Expected: \"Browse mode\" Got: \"Focus mode\nbeep\"") := by
  constructor
  · exact (pressKeysToToggleSetting_retry_spec [] "Browse mode" ["Browse mode"] []).1
      ⟨"Browse mode", by decide⟩
  · exact ((pressKeysToToggleSetting_retry_spec [] "Browse mode" ["Focus mode"] ["beep"]).2.2
      (by decide)).trans (by rfl)

def nvdaDesired (settings : String) : Option String :=
  if toLowerS settings == "browsemode" then some "Browse mode"
  else if toLowerS settings == "focusmode" then some "Focus mode"
  else none

def audioIndicationSetting : String := "virtualBuffers.passThroughAudioIndication"

def insertSpaceSeq : ATKeySequence :=
  ATKey.sequence [.chord (ATKey.chord [ATKey.key "insert", ATKey.key "space"])]

def leftRightSeq : ATKeySequence :=
  ATKey.sequence [.chord (ATKey.chord [ATKey.key "left", ATKey.key "right"])]

def ctrlOptQSeq : ATKeySequence :=
  ATKey.sequence [.chord (ATKey.chord [ATKey.key "control", ATKey.key "option", ATKey.key "q"])]

/-- Request trace of one runner-level sendKeys call on a sequence. -/
def seqReqsOf (s : ATKeySequence) : List Request := sendKeysRequests [.seq s]

/-- DriverTestRunner.ensureSettings as a trace-and-outcome function of the AT
name, the requested settings name and the speech captured during the up to
two toggle attempts.  For NVDA the audio-indication setting is disabled ahead
of the toggle and restored in a finally block, so the restore request is
issued whether the toggle succeeds or throws. -/
def ensureSettings (atName : String) (settings : String) (a1 a2 : List String) :
    List Request × Except String Unit :=
  if atName == "NVDA" then
    match nvdaDesired settings with
    | none => ([], .error ("Unknown command settings for NVDA \"" ++ settings ++ "\""))
    | some desired =>
      let toggle := pressKeysToToggleSettingT (seqReqsOf insertSpaceSeq) desired a1 a2
      (Request.setSettings audioIndicationSetting false ::
        (toggle.1 ++ [Request.setSettings audioIndicationSetting true]), toggle.2)
  else if atName == "VoiceOver" then
    if settings == "quickNavOn" || settings == "arrowQuickKeyNavOn" then
      pressKeysToToggleSettingT (seqReqsOf leftRightSeq) "quick nav on" a1 a2
    else if settings == "quickNavOff" || settings == "arrowQuickKeyNavOff" then
      pressKeysToToggleSettingT (seqReqsOf leftRightSeq) "quick nav off" a1 a2
    else if settings == "singleQuickKeyNavOn" then
      pressKeysToToggleSettingT (seqReqsOf ctrlOptQSeq) "single-key quick nav on" a1 a2
    else if settings == "singleQuickKeyNavOff" then
      pressKeysToToggleSettingT (seqReqsOf ctrlOptQSeq) "single-key quick nav off" a1 a2
    else if settings != "defaultMode" then
      ([], .error ("Unrecognized setting for VoiceOver: " ++ settings))
    else ([], .ok ())
  else if atName == "" then ([], .ok ())
  else ([], .error ("Unable to ensure proper settings. Unknown atName " ++ atName))

/-- DriverTestRunner.ensureMode for v1 tests: the legacy reading and
interaction modes translate to NVDA settings names; VoiceOver and an absent
AT name are no-ops; anything else is fatal. -/
def ensureMode (atName : String) (mode : String) (a1 a2 : List String) :
    List Request × Except String Unit :=
  if atName == "NVDA" then
    ensureSettings atName (if toLowerS mode == "reading" then "browseMode" else "focusMode") a1 a2
  else if atName == "VoiceOver" then ([], .ok ())
  else if atName == "" then ([], .ok ())
  else ([], .error ("Unable to ensure proper mode. Unknown atName " ++ atName))

/-- C5: whenever ensureSettings runs for NVDA with a recognized setting, the
first request it issues disables the audio-indication setting and the last
request restores it to true, on every execution path, and the outcome is that
of the toggle attempt, whether it succeeds or throws. -/
theorem ensureSettings_nvda_restores_audio (settings : String) (a1 a2 : List String)
    (desired : String) (h : nvdaDesired settings = some desired) :
    (∃ mid, (ensureSettings "NVDA" settings a1 a2).1 =
        Request.setSettings audioIndicationSetting false ::
          (mid ++ [Request.setSettings audioIndicationSetting true]))
    ∧ (ensureSettings "NVDA" settings a1 a2).2 =
        (pressKeysToToggleSettingT (seqReqsOf insertSpaceSeq) desired a1 a2).2 := by
  constructor
  · exact ⟨(pressKeysToToggleSettingT (seqReqsOf insertSpaceSeq) desired a1 a2).1,
      by simp [ensureSettings, h]⟩
  · simp [ensureSettings, h]

/-- Witness for C5 at the setting browseMode, once with a succeeding toggle
and once with a toggle that throws. -/
theorem ensureSettings_nvda_restores_audio_witness :
    nvdaDesired "browseMode" = some "Browse mode"
    ∧ (∃ mid, (ensureSettings "NVDA" "browseMode" ["Browse mode"] []).1 =
        Request.setSettings audioIndicationSetting false ::
          (mid ++ [Request.setSettings audioIndicationSetting true]))
    ∧ (∃ mid, (ensureSettings "NVDA" "browseMode" ["beep"] ["boop"]).1 =
        Request.setSettings audioIndicationSetting false ::
          (mid ++ [Request.setSettings audioIndicationSetting true])) :=
  ⟨by decide,
   (ensureSettings_nvda_restores_audio "browseMode" ["Browse mode"] [] "Browse mode" (by decide)).1,
   (ensureSettings_nvda_restores_audio "browseMode" ["beep"] ["boop"] "Browse mode" (by decide)).1⟩

structure Capabilities where
  atName : String
  atVersion : String
  browserName : String
  browserVersion : String
  platformName : String
deriving DecidableEq

structure Assertion where
  expectation : Option String
  assertionStatement : Option String
deriving DecidableEq

structure CommandOutput where
  command : String
  output : Option String
  errors : Option (List String)
deriving DecidableEq

structure AssertionResult where
  command : String
  expectation : Option String
  pass : Bool
deriving DecidableEq

structure TestInfo where
  testId : Nat
  presentationNumber : Option Nat
deriving DecidableEq

structure TestTarget where
  referencePage : String
  mode : Option String
deriving DecidableEq

structure CollectedTest where
  info : TestInfo
  target : TestTarget
  commands : List Command
  assertions : List Assertion
deriving DecidableEq

structure TestResult where
  testId : Nat
  presentationNumber : Option Nat
  capabilities : Capabilities
  commands : List CommandOutput
  results : List AssertionResult
deriving DecidableEq

/-- JS truthiness of an optional string field: absent and empty are falsy. -/
def truthyS : Option String → Bool
  | none => false
  | some s => s != ""

/-- JS logical-or on optional string fields: the left operand when truthy,
otherwise the right operand. -/
def jsOr (a b : Option String) : Option String :=
  if truthyS a then a else b

structure BaseURL where
  protocol : String
  hostname : String
  port : String
  pathname : String
deriving DecidableEq

/-- The URL built by _appendBaseUrl.  The JS URL constructor resolves newPath
against base; resolution itself is abstracted: the two strings handed to the
constructor are paired into one value, keeping the result injective in its
inputs. -/
def appendBaseUrl (b : BaseURL) (pathname : String) : String :=
  (b.protocol ++ "://" ++ b.hostname ++ ":" ++ b.port ++ b.pathname) ++ " " ++
  ((if b.pathname != "" then b.pathname ++ "/" else "") ++ pathname)

/-- Environment inputs consumed while one command runs: the speech captured in
the after-keys window and the speech captured during the two possible
attempts of a settings toggle. -/
structure CommandEnv where
  spoken : List String
  a1 : List String
  a2 : List String

/-- The settings-or-mode phase of one valid command: the explicit per-command
settings of a v2 test take precedence, else the legacy v1 mode of the test
target, else nothing happens. -/
def settingsPhase (atName : String) (cmd : Command) (target : TestTarget)
    (e : CommandEnv) : List Request × Except String Unit :=
  if truthyS cmd.settings then ensureSettings atName (cmd.settings.getD "") e.a1 e.a2
  else if truthyS target.mode then ensureMode atName (target.mode.getD "") e.a1 e.a2
  else ([], .ok ())

def testSetupSelector : String := ".button-run-test-setup"

/-- Browser actions of openPage: navigate, await document ready, and attempt
to click the run-test-setup button (a missing button is logged, not fatal). -/
def openPageReqs (url : String) : List Request :=
  [.navigate url, .documentReady, .clickWhenPresent testSetupSelector]

/-- The command loop of DriverTestRunner.run: an invalid command contributes
its errors and failing assertion results and is otherwise skipped, issuing no
requests, while the loop continues; a valid command opens the reference page,
applies settings or mode (whose failure aborts the run), sends the mapped
keys, returns to a blank page, and records the joined speech together with
passing assertion results. -/
def runCommands (atName : String) (baseUrl : BaseURL) (target : TestTarget)
    (assertions : List Assertion) (env : Nat → CommandEnv) :
    List Command → Nat → List Request × Except String (List CommandOutput × List AssertionResult)
  | [], _ => ([], .ok ([], []))
  | cmd :: rest, i =>
    match (validateKeysFromCommand cmd).value with
    | some valid =>
      let e := env i
      let nav := openPageReqs (appendBaseUrl baseUrl target.referencePage)
      let s := settingsPhase atName cmd target e
      match s.2 with
      | .error msg => (nav ++ s.1, .error msg)
      | .ok () =>
        let tr := nav ++ s.1 ++ sendKeysRequests [.seq (atKeysFromCommand valid)] ++
          [.navigate "about:blank"]
        let r := runCommands atName baseUrl target assertions env rest (i + 1)
        (tr ++ r.1,
         match r.2 with
         | .error m => .error m
         | .ok (outs, res) =>
           .ok (⟨cmd.id, some (String.intercalate "\n" e.spoken), none⟩ :: outs,
             assertions.map (fun a =>
               ⟨cmd.id, jsOr a.expectation a.assertionStatement, true⟩) ++ res))
    | none =>
      let errs := (validateKeysFromCommand cmd).errors.getD []
      let r := runCommands atName baseUrl target assertions env rest (i + 1)
      (r.1,
       match r.2 with
       | .error m => .error m
       | .ok (outs, res) =>
         .ok (⟨cmd.id, none, some errs⟩ :: outs,
           assertions.map (fun a => ⟨cmd.id, a.expectation, false⟩) ++ res))

/-- DriverTestRunner.run: initial blank navigation, then the command loop; on
success the TestResult carries the memoized capabilities and the accumulated
outputs and results. -/
def DriverTestRunner.run (caps : Capabilities) (baseUrl : BaseURL)
    (test : CollectedTest) (env : Nat → CommandEnv) :
    List Request × Except String TestResult :=
  let r := runCommands caps.atName baseUrl test.target test.assertions env test.commands 0
  (Request.navigate "about:blank" :: r.1,
   match r.2 with
   | .error m => .error m
   | .ok (outs, res) =>
     .ok ⟨test.info.testId, test.info.presentationNumber, caps, outs, res⟩)

/-- The per-command results block the loop appends: passing results with the
expectation fallback for a validated command, failing results without the
fallback for a rejected one. -/
def commandResults (assertions : List Assertion) (c : Command) : List AssertionResult :=
  if (validateKeysFromCommand c).value.isSome then
    assertions.map (fun a => ⟨c.id, jsOr a.expectation a.assertionStatement, true⟩)
  else
    assertions.map (fun a => ⟨c.id, a.expectation, false⟩)

theorem runCommands_ok (atName : String) (baseUrl : BaseURL) (target : TestTarget)
    (assertions : List Assertion) (env : Nat → CommandEnv) :
    ∀ (cmds : List Command) (i : Nat) (tr : List Request)
      (outs : List CommandOutput) (res : List AssertionResult),
      runCommands atName baseUrl target assertions env cmds i = (tr, .ok (outs, res)) →
      outs.length = cmds.length ∧ res = cmds.flatMap (commandResults assertions) := by
  intro cmds
  induction cmds with
  | nil =>
    intro i tr outs res h
    simp only [runCommands, Prod.mk.injEq, Except.ok.injEq] at h
    obtain ⟨-, houts, hres⟩ := h
    simp [← houts, ← hres]
  | cons cmd rest ih =>
    intro i tr outs res h
    rcases hv : (validateKeysFromCommand cmd).value with _ | valid
    · rcases hr : runCommands atName baseUrl target assertions env rest (i + 1) with ⟨rtr, rres⟩
      simp only [runCommands, hv, hr] at h
      rcases rres with m | ⟨routs, rres2⟩
      · simp at h
      · simp only [Prod.mk.injEq, Except.ok.injEq] at h
        obtain ⟨-, houts, hres⟩ := h
        obtain ⟨hlen, hflat⟩ := ih (i + 1) rtr routs rres2 (by rw [hr])
        subst houts hres
        constructor
        · simp [hlen]
        · simp [List.flatMap_cons, commandResults, hv, hflat]
    · rcases hs : settingsPhase atName cmd target (env i) with ⟨str, sres⟩
      rcases sres with m | u
      · simp only [runCommands, hv, hs] at h
        simp at h
      · rcases hr : runCommands atName baseUrl target assertions env rest (i + 1) with ⟨rtr, rres⟩
        simp only [runCommands, hv, hs, hr] at h
        rcases rres with m | ⟨routs, rres2⟩
        · simp at h
        · simp only [Prod.mk.injEq, Except.ok.injEq] at h
          obtain ⟨-, houts, hres⟩ := h
          obtain ⟨hlen, hflat⟩ := ih (i + 1) rtr routs rres2 (by rw [hr])
          subst houts hres
          constructor
          · simp [hlen]
          · simp [List.flatMap_cons, commandResults, hv, hflat]

theorem flatMap_const_length {α β : Type} (f : α → List β) (k : Nat) (l : List α)
    (h : ∀ x ∈ l, (f x).length = k) : (l.flatMap f).length = l.length * k := by
  induction l with
  | nil => simp
  | cons x rest ih =>
    simp only [List.flatMap_cons, List.length_append, List.length_cons]
    rw [h x (by simp), ih (fun y hy => h y (by simp [hy]))]
    ring

theorem commandResults_length (assertions : List Assertion) (c : Command) :
    (commandResults assertions c).length = assertions.length := by
  unfold commandResults
  by_cases h : (validateKeysFromCommand c).value.isSome <;> simp [h]

/-- C2: a TestResult returned by run has one CommandOutput per command of the
test and one AssertionResult per assertion per command, passing exactly when
the command validated, so the results length is the commands length times the
assertions length in aggregate; and a command that fails validation issues no
requests (no navigation, no key press) while the loop continues with the
remaining commands. -/
theorem run_result_counts (caps : Capabilities) (baseUrl : BaseURL)
    (test : CollectedTest) (env : Nat → CommandEnv) (tr : List Request)
    (result : TestResult)
    (h : DriverTestRunner.run caps baseUrl test env = (tr, .ok result)) :
    result.commands.length = test.commands.length
    ∧ result.results.length = test.commands.length * test.assertions.length
    ∧ result.results.map (fun r => (r.command, r.pass)) =
        test.commands.flatMap (fun c => test.assertions.map (fun _ =>
          (c.id, (validateKeysFromCommand c).value.isSome)))
    ∧ (∀ (cmd : Command) (rest : List Command) (i : Nat),
        (validateKeysFromCommand cmd).value = none →
        (runCommands caps.atName baseUrl test.target test.assertions env (cmd :: rest) i).1 =
          (runCommands caps.atName baseUrl test.target test.assertions env rest (i + 1)).1) := by
  rcases hr : runCommands caps.atName baseUrl test.target test.assertions env test.commands 0
    with ⟨rtr, rres⟩
  rcases rres with m | ⟨routs, rres2⟩
  · exfalso
    simp only [DriverTestRunner.run, hr] at h
    simp at h
  · simp only [DriverTestRunner.run, hr, Prod.mk.injEq, Except.ok.injEq] at h
    obtain ⟨-, hres⟩ := h
    obtain ⟨hlen, hflat⟩ := runCommands_ok caps.atName baseUrl test.target test.assertions env
      test.commands 0 rtr routs rres2 (by rw [hr])
    refine ⟨?_, ?_, ?_, ?_⟩
    · rw [← hres]; exact hlen
    · rw [← hres]
      simp only [hflat]
      exact flatMap_const_length _ _ _ (fun c _ => commandResults_length test.assertions c)
    · rw [← hres]
      simp only [hflat]
      clear hflat hres hlen hr
      induction test.commands with
      | nil => simp
      | cons c rest ih =>
        simp only [List.flatMap_cons, List.map_append, ih]
        congr 1
        unfold commandResults
        by_cases hc : (validateKeysFromCommand c).value.isSome <;>
          simp [hc, List.map_map, Function.comp_def]
    · intro cmd rest i hnone
      rcases hrr : runCommands caps.atName baseUrl test.target test.assertions env rest (i + 1)
        with ⟨rtr2, rres3⟩
      rcases rres3 with m | ⟨routs2, rres4⟩ <;>
        simp [runCommands, hnone, hrr]

def slashCommand : Command := ⟨"c2", [⟨"A/B".toList⟩], none⟩

theorem transformId_slash : transformId "A/B".toList = "A/B".toList := by
  have h1 : replacePlusFirst (replacePage "A/B".toList) = "A/B".toList := by decide
  rw [transformId, h1]
  simp [removeArrow, startsWithL, arrowPat]

def slashErrors : List String := [slashErr "A/B".toList, partErr "A/B".toList "A/B".toList]

theorem validate_slash : validateKeysFromCommand slashCommand = ⟨none, some slashErrors⟩ := by
  have he : errorsForId ['A', '/', 'B'] = slashErrors := by
    have h2 : errorsForId "A/B".toList = slashErrors := by
      simp only [errorsForId, transformId_slash]
      decide
    exact h2
  simp [validateKeysFromCommand, slashCommand, he, slashErrors]

def witnessCaps : Capabilities := ⟨"", "", "", "", ""⟩
def witnessUrl : BaseURL := ⟨"http", "h", "80", ""⟩
def witnessTarget : TestTarget := ⟨"ref", none⟩
def witnessAssertions : List Assertion := [⟨none, some "s"⟩]
def witnessTest : CollectedTest :=
  ⟨⟨1, none⟩, witnessTarget, [enterCommand, slashCommand], witnessAssertions⟩
def witnessEnv : Nat → CommandEnv := fun _ => ⟨[], [], []⟩

theorem witness_run_snd :
    (DriverTestRunner.run witnessCaps witnessUrl witnessTest witnessEnv).2 =
      .ok ⟨1, none, witnessCaps,
        [⟨"c1", some "", none⟩, ⟨"c2", none, some slashErrors⟩],
        [⟨"c1", some "s", true⟩, ⟨"c2", none, false⟩]⟩ := by
  have hrun : (runCommands witnessCaps.atName witnessUrl witnessTest.target
      witnessTest.assertions witnessEnv witnessTest.commands 0).2 =
      .ok ([⟨"c1", some "", none⟩, ⟨"c2", none, some slashErrors⟩],
        [⟨"c1", some "s", true⟩, ⟨"c2", none, false⟩]) := by
    show (runCommands "" witnessUrl witnessTarget witnessAssertions witnessEnv
      [enterCommand, slashCommand] 0).2 = _
    simp only [runCommands, validate_enter, validate_slash]
    rfl
  rcases hall : runCommands witnessCaps.atName witnessUrl witnessTest.target
      witnessTest.assertions witnessEnv witnessTest.commands 0 with ⟨atr, ares⟩
  rw [hall] at hrun
  simp only at hrun
  subst hrun
  simp only [DriverTestRunner.run, hall]
  rfl

/-- Witness for C2: a two-command test, one valid command and one invalid,
with a single assertion; the run succeeds with two command outputs and two
assertion results. -/
theorem run_result_counts_witness :
    ∃ tr result,
      DriverTestRunner.run witnessCaps witnessUrl witnessTest witnessEnv = (tr, .ok result)
      ∧ result.commands.length = 2 ∧ result.results.length = 2 := by
  refine ⟨(DriverTestRunner.run witnessCaps witnessUrl witnessTest witnessEnv).1,
    ⟨1, none, witnessCaps,
      [⟨"c1", some "", none⟩, ⟨"c2", none, some slashErrors⟩],
      [⟨"c1", some "s", true⟩, ⟨"c2", none, false⟩]⟩, ?_, ?_, ?_⟩
  · have h := run_result_counts witnessCaps witnessUrl witnessTest witnessEnv
      (DriverTestRunner.run witnessCaps witnessUrl witnessTest witnessEnv).1
      ⟨1, none, witnessCaps,
        [⟨"c1", some "", none⟩, ⟨"c2", none, some slashErrors⟩],
        [⟨"c1", some "s", true⟩, ⟨"c2", none, false⟩]⟩
      (by rw [← witness_run_snd])
    rw [← witness_run_snd]
  · simp
  · simp

/-- C10: in a returned TestResult the expectation of an AssertionResult for a
validated command is the expectation of the assertion with the
assertionStatement as fallback, while for a command that failed validation it
is the bare expectation with no fallback; hence for a test whose assertions
carry only assertionStatement, failing results have no expectation while
passing ones carry the statement text. -/
theorem assertion_expectation_fallback (caps : Capabilities) (baseUrl : BaseURL)
    (test : CollectedTest) (env : Nat → CommandEnv) (tr : List Request)
    (result : TestResult)
    (h : DriverTestRunner.run caps baseUrl test env = (tr, .ok result)) :
    result.results = test.commands.flatMap (fun c =>
      if (validateKeysFromCommand c).value.isSome then
        test.assertions.map (fun a => ⟨c.id, jsOr a.expectation a.assertionStatement, true⟩)
      else test.assertions.map (fun a => ⟨c.id, a.expectation, false⟩))
    ∧ ((∀ a ∈ test.assertions, a.expectation = none) →
        ∀ r ∈ result.results,
          (r.pass = false → r.expectation = none)
          ∧ (r.pass = true → ∃ a ∈ test.assertions, r.expectation = a.assertionStatement)) := by
  rcases hr : runCommands caps.atName baseUrl test.target test.assertions env test.commands 0
    with ⟨rtr, rres⟩
  rcases rres with m | ⟨routs, rres2⟩
  · exfalso
    simp only [DriverTestRunner.run, hr] at h
    simp at h
  · simp only [DriverTestRunner.run, hr, Prod.mk.injEq, Except.ok.injEq] at h
    obtain ⟨-, hres⟩ := h
    obtain ⟨-, hflat⟩ := runCommands_ok caps.atName baseUrl test.target test.assertions env
      test.commands 0 rtr routs rres2 (by rw [hr])
    have hres2 : result.results = test.commands.flatMap (commandResults test.assertions) := by
      rw [← hres]
      exact hflat
    refine ⟨hres2, ?_⟩
    intro hexp r hrmem
    rw [hres2] at hrmem
    obtain ⟨c, -, hrc⟩ := List.mem_flatMap.mp hrmem
    unfold commandResults at hrc
    by_cases hc : (validateKeysFromCommand c).value.isSome
    · rw [if_pos hc] at hrc
      obtain ⟨a, ha, heq⟩ := List.mem_map.mp hrc
      subst heq
      refine ⟨fun habs => by simp at habs, fun _ => ⟨a, ha, ?_⟩⟩
      simp [jsOr, truthyS, hexp a ha]
    · rw [if_neg hc] at hrc
      obtain ⟨a, ha, heq⟩ := List.mem_map.mp hrc
      subst heq
      exact ⟨fun _ => hexp a ha, fun habs => by simp at habs⟩

def witnessResult : TestResult :=
  ⟨1, none, witnessCaps,
    [⟨"c1", some "", none⟩, ⟨"c2", none, some slashErrors⟩],
    [⟨"c1", some "s", true⟩, ⟨"c2", none, false⟩]⟩

theorem witness_run_eq :
    DriverTestRunner.run witnessCaps witnessUrl witnessTest witnessEnv =
      ((DriverTestRunner.run witnessCaps witnessUrl witnessTest witnessEnv).1,
        .ok witnessResult) := by
  rw [show (Except.ok witnessResult :
      Except String TestResult) = (DriverTestRunner.run witnessCaps witnessUrl witnessTest
        witnessEnv).2 from (witness_run_snd).symm]

/-- Witness for C10: in the two-command witness run, whose single assertion
carries only an assertionStatement, the passing result carries the statement
text and the failing result has no expectation. -/
theorem assertion_expectation_fallback_witness :
    witnessResult.results = witnessTest.commands.flatMap (fun c =>
      if (validateKeysFromCommand c).value.isSome then
        witnessTest.assertions.map (fun a => ⟨c.id, jsOr a.expectation a.assertionStatement, true⟩)
      else witnessTest.assertions.map (fun a => ⟨c.id, a.expectation, false⟩))
    ∧ (witnessResult.results.get ⟨0, by simp [witnessResult]⟩).pass = true
    ∧ (witnessResult.results.get ⟨0, by simp [witnessResult]⟩).expectation = some "s"
    ∧ (witnessResult.results.get ⟨1, by simp [witnessResult]⟩).pass = false
    ∧ (witnessResult.results.get ⟨1, by simp [witnessResult]⟩).expectation = none := by
  refine ⟨(assertion_expectation_fallback witnessCaps witnessUrl witnessTest witnessEnv
    _ _ witness_run_eq).1, rfl, rfl, rfl, rfl⟩

/-- The runner constructor invokes getCapabilities at construction time and
memoizes the promise: construction issues exactly one capabilities fetch. -/
def constructorTrace : List Request := [.getCapabilities]

/-- A runner lifetime: construction followed by any sequence of runs, each
test paired with its environment inputs. -/
def runnerLifetimeTrace (caps : Capabilities) (baseUrl : BaseURL)
    (tests : List (CollectedTest × (Nat → CommandEnv))) : List Request :=
  constructorTrace ++
    tests.flatMap (fun te => (DriverTestRunner.run caps baseUrl te.1 te.2).1)

theorem getCaps_not_mem_sendKeys (items : List ATItem) :
    Request.getCapabilities ∉ sendKeysRequests items := by
  intro h
  simp only [sendKeysRequests, List.mem_flatMap, List.mem_map] at h
  obtain ⟨ch, -, -, -, heq⟩ := h
  exact Request.noConfusion heq

theorem getCaps_not_mem_toggleGo (seqReqs : List Request) (d : String)
    (hs : Request.getCapabilities ∉ seqReqs) :
    ∀ (attempts : List (List String)) (acc : String),
      Request.getCapabilities ∉ (toggleGo seqReqs d acc attempts).1 := by
  intro attempts
  induction attempts with
  | nil => intro acc; simp [toggleGo]
  | cons a rest ih =>
    intro acc
    rcases hsc : scanLines d acc a with ⟨acc2, f⟩
    cases f with
    | true => simp only [toggleGo, hsc]; exact hs
    | false =>
      simp only [toggleGo, hsc]
      intro hmem
      rcases List.mem_append.mp hmem with h1 | h2
      · exact hs h1
      · exact ih acc2 h2

theorem getCaps_not_mem_toggle (seqReqs : List Request) (d : String)
    (a1 a2 : List String) (hs : Request.getCapabilities ∉ seqReqs) :
    Request.getCapabilities ∉ (pressKeysToToggleSettingT seqReqs d a1 a2).1 :=
  getCaps_not_mem_toggleGo seqReqs d hs [a1, a2] ""

theorem getCaps_not_mem_ensureSettings (atName settings : String) (a1 a2 : List String) :
    Request.getCapabilities ∉ (ensureSettings atName settings a1 a2).1 := by
  have htog : ∀ (s : ATKeySequence) (d : String),
      Request.getCapabilities ∉ (pressKeysToToggleSettingT (seqReqsOf s) d a1 a2).1 :=
    fun s d => getCaps_not_mem_toggle _ _ _ _ (getCaps_not_mem_sendKeys _)
  unfold ensureSettings
  split
  · split
    · simp
    · intro hmem
      simp only [List.mem_cons, List.mem_append] at hmem
      rcases hmem with h | h
      · exact Request.noConfusion h
      · rcases h with h2 | h2
        · exact htog insertSpaceSeq _ h2
        · rcases h2 with h3 | h3
          · exact Request.noConfusion h3
          · simp at h3
  · repeat' split
    all_goals first
      | exact htog _ _
      | simp

theorem getCaps_not_mem_ensureMode (atName mode : String) (a1 a2 : List String) :
    Request.getCapabilities ∉ (ensureMode atName mode a1 a2).1 := by
  unfold ensureMode
  split
  · exact getCaps_not_mem_ensureSettings _ _ _ _
  · repeat' split
    all_goals simp

theorem getCaps_not_mem_settingsPhase (atName : String) (cmd : Command)
    (target : TestTarget) (e : CommandEnv) :
    Request.getCapabilities ∉ (settingsPhase atName cmd target e).1 := by
  unfold settingsPhase
  split
  · exact getCaps_not_mem_ensureSettings _ _ _ _
  · split
    · exact getCaps_not_mem_ensureMode _ _ _ _
    · simp

theorem getCaps_not_mem_openPage (url : String) :
    Request.getCapabilities ∉ openPageReqs url := by
  intro h
  rcases List.mem_cons.mp h with h1 | h1
  · exact Request.noConfusion h1
  · rcases List.mem_cons.mp h1 with h2 | h2
    · exact Request.noConfusion h2
    · rcases List.mem_cons.mp h2 with h3 | h3
      · exact Request.noConfusion h3
      · simp at h3

theorem getCaps_not_mem_runCommands (atName : String) (baseUrl : BaseURL)
    (target : TestTarget) (assertions : List Assertion) (env : Nat → CommandEnv) :
    ∀ (cmds : List Command) (i : Nat),
      Request.getCapabilities ∉ (runCommands atName baseUrl target assertions env cmds i).1 := by
  intro cmds
  induction cmds with
  | nil => intro i; simp [runCommands]
  | cons cmd rest ih =>
    intro i
    rcases hv : (validateKeysFromCommand cmd).value with _ | valid
    · rcases hr : runCommands atName baseUrl target assertions env rest (i + 1) with ⟨rtr, rres⟩
      simp only [runCommands, hv, hr]
      have := ih (i + 1)
      rw [hr] at this
      intro hmem
      exact this hmem
    · rcases hs : settingsPhase atName cmd target (env i) with ⟨str, sres⟩
      have hstr : Request.getCapabilities ∉ str := by
        have := getCaps_not_mem_settingsPhase atName cmd target (env i)
        rw [hs] at this
        exact this
      rcases sres with m | u
      · simp only [runCommands, hv, hs]
        intro hmem
        rcases List.mem_append.mp hmem with h1 | h2
        · exact getCaps_not_mem_openPage _ h1
        · exact hstr h2
      · rcases hr : runCommands atName baseUrl target assertions env rest (i + 1) with ⟨rtr, rres⟩
        simp only [runCommands, hv, hs, hr]
        have hrest := ih (i + 1)
        rw [hr] at hrest
        intro hmem
        rcases List.mem_append.mp hmem with h1 | h2
        · rcases List.mem_append.mp h1 with h3 | h4
          · rcases List.mem_append.mp h3 with h5 | h6
            · rcases List.mem_append.mp h5 with h7 | h8
              · exact getCaps_not_mem_openPage _ h7
              · exact hstr h8
            · exact getCaps_not_mem_sendKeys _ h6
          · simp only [List.mem_singleton] at h4
            exact Request.noConfusion h4
        · exact hrest h2

theorem getCaps_not_mem_run (caps : Capabilities) (baseUrl : BaseURL)
    (test : CollectedTest) (env : Nat → CommandEnv) :
    Request.getCapabilities ∉ (DriverTestRunner.run caps baseUrl test env).1 := by
  unfold DriverTestRunner.run
  intro hmem
  rcases List.mem_cons.mp hmem with h | h
  · exact Request.noConfusion h
  · exact getCaps_not_mem_runCommands caps.atName baseUrl test.target test.assertions env
      test.commands 0 h

/-- C8: over a whole runner lifetime the Capabilities record is fetched
exactly once, by the single getCapabilities call made and memoized at
construction, and every TestResult returned by run carries that same record;
no run ever issues another fetch. -/
theorem capabilities_fetched_once (caps : Capabilities) (baseUrl : BaseURL)
    (tests : List (CollectedTest × (Nat → CommandEnv))) :
    (runnerLifetimeTrace caps baseUrl tests).count Request.getCapabilities = 1
    ∧ ∀ te ∈ tests, ∀ (tr : List Request) (result : TestResult),
        DriverTestRunner.run caps baseUrl te.1 te.2 = (tr, .ok result) →
        result.capabilities = caps := by
  constructor
  · unfold runnerLifetimeTrace
    rw [List.count_append]
    have h0 : (tests.flatMap
        (fun te => (DriverTestRunner.run caps baseUrl te.1 te.2).1)).count
        Request.getCapabilities = 0 := by
      rw [List.count_eq_zero]
      intro hmem
      obtain ⟨te, -, hmem2⟩ := List.mem_flatMap.mp hmem
      exact getCaps_not_mem_run caps baseUrl te.1 te.2 hmem2
    rw [h0]
    rfl
  · intro te _ tr result h
    rcases hr : runCommands caps.atName baseUrl te.1.target te.1.assertions te.2
      te.1.commands 0 with ⟨rtr, rres⟩
    rcases rres with m | ⟨routs, rres2⟩
    · exfalso
      simp only [DriverTestRunner.run, hr] at h
      simp at h
    · simp only [DriverTestRunner.run, hr, Prod.mk.injEq, Except.ok.injEq] at h
      obtain ⟨-, hres⟩ := h
      rw [← hres]

/-- Witness for C8: a lifetime of one run on the witness test fetches the
capabilities once, and the returned result carries the constructed record. -/
theorem capabilities_fetched_once_witness :
    (runnerLifetimeTrace witnessCaps witnessUrl
      [(witnessTest, witnessEnv)]).count Request.getCapabilities = 1
    ∧ witnessResult.capabilities = witnessCaps := by
  constructor
  · exact (capabilities_fetched_once witnessCaps witnessUrl [(witnessTest, witnessEnv)]).1
  · exact (capabilities_fetched_once witnessCaps witnessUrl [(witnessTest, witnessEnv)]).2
      (witnessTest, witnessEnv) (by simp)
      (DriverTestRunner.run witnessCaps witnessUrl witnessTest witnessEnv).1
      witnessResult witness_run_eq

/-- The keypress id contains the word w with a JS word boundary on each side:
a decomposition whose left neighbour is absent or a non-word character, and
likewise on the right. -/
def containsWord (w s : List Char) : Prop :=
  ∃ pre post, s = pre ++ w ++ post
    ∧ (pre = [] ∨ ∃ c, pre.getLast? = some c ∧ isWordChar c = false)
    ∧ (post = [] ∨ ∃ c, post.head? = some c ∧ isWordChar c = false)

/-- Left-boundary invariant maintained while the word is tracked through the
id normalization: the character before the word is absent, non-word, or the
underscore a replaced plus sign left behind. -/
def leftOK (pre : List Char) : Prop :=
  pre = [] ∨ ∃ c, pre.getLast? = some c ∧ (isWordChar c = false ∨ c = '_')

theorem startsWithL_head (p : Char) (ps : List Char) (c : Char) (cs : List Char)
    (h : startsWithL (p :: ps) (c :: cs) = true) : p = c := by
  simp only [startsWithL, Bool.and_eq_true, decide_eq_true_eq] at h
  exact h.1

theorem startsWithL_decomp : ∀ (pat l : List Char), startsWithL pat l = true →
    l = pat ++ l.drop pat.length := by
  intro pat
  induction pat with
  | nil => intro l _; simp
  | cons p ps ih =>
    intro l h
    cases l with
    | nil => simp [startsWithL] at h
    | cons c cs =>
      simp only [startsWithL, Bool.and_eq_true, decide_eq_true_eq] at h
      obtain ⟨hpc, hrest⟩ := h
      subst hpc
      have := ih cs hrest
      simp only [List.length_cons, List.drop_succ_cons, List.cons_append]
      exact congrArg _ this

theorem startsWithL_overlap : ∀ (pat pre : List Char) (c : Char) (cs : List Char),
    startsWithL pat (pre ++ c :: cs) = true → pre.length < pat.length → c ∈ pat := by
  intro pat pre
  induction pre generalizing pat with
  | nil =>
    intro c cs h hlt
    cases pat with
    | nil => simp at hlt
    | cons p ps =>
      rw [List.nil_append] at h
      rw [← startsWithL_head p ps c cs h]
      exact List.mem_cons_self _ _
  | cons a pre' ih =>
    intro c cs h hlt
    cases pat with
    | nil => simp at hlt
    | cons p ps =>
      rw [List.cons_append] at h
      simp only [startsWithL, Bool.and_eq_true, decide_eq_true_eq] at h
      exact List.mem_cons_of_mem _ (ih ps c cs h.2 (by simpa using Nat.lt_of_succ_lt_succ hlt))

theorem startsWithL_of_le : ∀ (pat pre rest : List Char),
    startsWithL pat (pre ++ rest) = true → pat.length ≤ pre.length →
    ∃ pre2, pre = pat ++ pre2 := by
  intro pat
  induction pat with
  | nil => intro pre rest _ _; exact ⟨pre, rfl⟩
  | cons p ps ih =>
    intro pre rest h hle
    cases pre with
    | nil => simp at hle
    | cons a pre' =>
      rw [List.cons_append] at h
      have hhead := startsWithL_head p ps a (pre' ++ rest) h
      simp only [startsWithL, Bool.and_eq_true, decide_eq_true_eq] at h
      obtain ⟨pre2, hp⟩ := ih pre' rest h.2 (Nat.le_of_succ_le_succ (by simpa using hle))
      exact ⟨pre2, by rw [← hhead, hp]; rfl⟩

theorem getLast?_cons_ne (a : Char) (l : List Char) (h : l ≠ []) :
    (a :: l).getLast? = l.getLast? := by
  cases l with
  | nil => exact absurd rfl h
  | cons b l' => simp [List.getLast?_cons_cons]

theorem leftOK_cons (a : Char) (l : List Char) (h : leftOK l) (hne : l ≠ []) :
    leftOK (a :: l) := by
  rcases h with h | ⟨c, hc, hcw⟩
  · exact absurd h hne
  · exact Or.inr ⟨c, by rw [getLast?_cons_ne a l hne]; exact hc, hcw⟩

theorem leftOK_tail (a : Char) (l : List Char) (h : leftOK (a :: l)) (hne : l ≠ []) :
    leftOK l := by
  rcases h with h | ⟨c, hc, hcw⟩
  · exact absurd h (List.cons_ne_nil _ _)
  · rw [getLast?_cons_ne a l hne] at hc
    exact Or.inr ⟨c, hc, hcw⟩

theorem replacePage_skip : ∀ (u rest : List Char),
    (∀ c ∈ u, c ∉ pageDownPat ∧ c ∉ pageUpPat) →
    replacePage (u ++ rest) = u ++ replacePage rest := by
  intro u
  induction u with
  | nil => intro rest _; rfl
  | cons c u' ih =>
    intro rest hu
    have hc := hu c (List.mem_cons_self _ _)
    have h1 : startsWithL pageDownPat (c :: (u' ++ rest)) = false := by
      cases h : startsWithL pageDownPat (c :: (u' ++ rest)) with
      | false => rfl
      | true =>
        exact absurd (startsWithL_overlap pageDownPat [] c (u' ++ rest)
          (by simpa using h) (by decide)) hc.1
    have h2 : startsWithL pageUpPat (c :: (u' ++ rest)) = false := by
      cases h : startsWithL pageUpPat (c :: (u' ++ rest)) with
      | false => rfl
      | true =>
        exact absurd (startsWithL_overlap pageUpPat [] c (u' ++ rest)
          (by simpa using h) (by decide)) hc.2
    rw [List.cons_append]
    rw [show replacePage (c :: (u' ++ rest)) = c :: replacePage (u' ++ rest) from by
      simp only [replacePage, h1, h2, Bool.false_eq_true, if_false]]
    rw [ih rest (fun x hx => hu x (List.mem_cons_of_mem _ hx))]
    rfl

theorem replacePlusFirst_skip : ∀ (u rest : List Char), (∀ c ∈ u, c ≠ '+') →
    replacePlusFirst (u ++ rest) = u ++ replacePlusFirst rest := by
  intro u
  induction u with
  | nil => intro rest _; rfl
  | cons c u' ih =>
    intro rest hu
    have hc : (c = '+') = False := by
      simp [hu c (List.mem_cons_self _ _)]
    rw [List.cons_append]
    rw [show replacePlusFirst (c :: (u' ++ rest)) = c :: replacePlusFirst (u' ++ rest) from by
      simp only [replacePlusFirst, hc, if_false]]
    rw [ih rest (fun x hx => hu x (List.mem_cons_of_mem _ hx))]
    rfl

theorem removeArrow_skip : ∀ (u rest : List Char), (∀ c ∈ u, c ≠ '_') →
    removeArrow (u ++ rest) = u ++ removeArrow rest := by
  intro u
  induction u with
  | nil => intro rest _; rfl
  | cons c u' ih =>
    intro rest hu
    have h1 : startsWithL arrowPat (c :: (u' ++ rest)) = false := by
      cases h : startsWithL arrowPat (c :: (u' ++ rest)) with
      | false => rfl
      | true =>
        exact absurd (startsWithL_head '_' "ARROW".toList c (u' ++ rest) h).symm
          (hu c (List.mem_cons_self _ _))
    rw [List.cons_append]
    rw [show removeArrow (c :: (u' ++ rest)) = c :: removeArrow (u' ++ rest) from by
      rw [removeArrow]
      simp only [h1, Bool.false_eq_true, if_false]]
    rw [ih rest (fun x hx => hu x (List.mem_cons_of_mem _ hx))]
    rfl

theorem getLast?_append_ne : ∀ (l1 l2 : List Char), l2 ≠ [] →
    (l1 ++ l2).getLast? = l2.getLast? := by
  intro l1
  induction l1 with
  | nil => intro l2 _; rfl
  | cons a l1' ih =>
    intro l2 h
    rw [List.cons_append, getLast?_cons_ne a (l1' ++ l2) (by simp [h]), ih l2 h]

theorem replacePage_trackLeft (c0 : Char) (w' : List Char)
    (hpd : ∀ c ∈ c0 :: w', c ∉ pageDownPat) (hpu : ∀ c ∈ c0 :: w', c ∉ pageUpPat) :
    ∀ (pre post : List Char), leftOK pre →
      ∃ pre2 post2, replacePage (pre ++ (c0 :: w') ++ post) = pre2 ++ (c0 :: w') ++ post2
        ∧ leftOK pre2 ∧ (pre2 = [] → pre = []) := by
  intro pre
  induction pre with
  | nil =>
    intro post _
    refine ⟨[], replacePage post, ?_, Or.inl rfl, fun _ => rfl⟩
    simpa using replacePage_skip (c0 :: w') post (fun c hc => ⟨hpd c hc, hpu c hc⟩)
  | cons a pre' ih =>
    intro post hleft
    have hform : (a :: pre') ++ (c0 :: w') ++ post = (a :: pre') ++ (c0 :: (w' ++ post)) := by
      simp
    by_cases h1 : startsWithL pageDownPat ((a :: pre') ++ (c0 :: w') ++ post) = true
    · have hlen : pageDownPat.length ≤ (a :: pre').length := by
        by_contra hlt
        push_neg at hlt
        exact absurd (startsWithL_overlap pageDownPat (a :: pre') c0 (w' ++ post)
          (by rw [← hform]; exact h1) hlt) (hpd c0 (List.mem_cons_self _ _))
      obtain ⟨pre_rest, hp⟩ := startsWithL_of_le pageDownPat (a :: pre')
        ((c0 :: w') ++ post) (by rw [List.append_assoc] at h1; exact h1) hlen
      have hprest_ne : pre_rest ≠ [] := by
        intro habs
        subst habs
        rw [List.append_nil] at hp
        rcases hleft with h | ⟨c, hc, hcw⟩
        · exact List.cons_ne_nil _ _ h
        · rw [hp, show pageDownPat.getLast? = some 'N' from by decide] at hc
          have hcN : c = 'N' := (Option.some.inj hc).symm
          subst hcN
          rcases hcw with hw | hw
          · exact absurd hw (by decide)
          · exact absurd hw (by decide)
      have hl : (a :: pre') ++ (c0 :: w') ++ post =
          pageDownPat ++ (pre_rest ++ (c0 :: w') ++ post) := by
        rw [hp]
        simp
      have hres : replacePage ((a :: pre') ++ (c0 :: w') ++ post) =
          pageDownRep ++ (pre_rest ++ (c0 :: w') ++ post) := by
        rw [show (a :: pre') ++ (c0 :: w') ++ post = a :: (pre' ++ ((c0 :: w') ++ post)) from by
          simp]
        rw [show replacePage (a :: (pre' ++ ((c0 :: w') ++ post))) =
            (if startsWithL pageDownPat (a :: (pre' ++ ((c0 :: w') ++ post))) then
              pageDownRep ++ (a :: (pre' ++ ((c0 :: w') ++ post))).drop pageDownPat.length
            else if startsWithL pageUpPat (a :: (pre' ++ ((c0 :: w') ++ post))) then
              pageUpRep ++ (a :: (pre' ++ ((c0 :: w') ++ post))).drop pageUpPat.length
            else a :: replacePage (pre' ++ ((c0 :: w') ++ post))) from rfl]
        rw [if_pos (by rw [show a :: (pre' ++ ((c0 :: w') ++ post)) =
          (a :: pre') ++ (c0 :: w') ++ post from by simp]; exact h1)]
        rw [show a :: (pre' ++ ((c0 :: w') ++ post)) =
          pageDownPat ++ (pre_rest ++ (c0 :: w') ++ post) from by
            rw [show a :: (pre' ++ ((c0 :: w') ++ post)) =
              (a :: pre') ++ (c0 :: w') ++ post from by simp]
            exact hl]
        rw [List.drop_left]
      refine ⟨pageDownRep ++ pre_rest, post, by rw [hres]; simp, ?_, ?_⟩
      · rcases hleft with h | ⟨c, hc, hcw⟩
        · exact absurd h (List.cons_ne_nil _ _)
        · refine Or.inr ⟨c, ?_, hcw⟩
          rw [getLast?_append_ne pageDownRep pre_rest hprest_ne]
          rw [hp, getLast?_append_ne pageDownPat pre_rest hprest_ne] at hc
          exact hc
      · intro habs
        exact absurd habs (by simp [pageDownRep])
    · by_cases h2 : startsWithL pageUpPat ((a :: pre') ++ (c0 :: w') ++ post) = true
      · have hlen : pageUpPat.length ≤ (a :: pre').length := by
          by_contra hlt
          push_neg at hlt
          exact absurd (startsWithL_overlap pageUpPat (a :: pre') c0 (w' ++ post)
            (by rw [← hform]; exact h2) hlt) (hpu c0 (List.mem_cons_self _ _))
        obtain ⟨pre_rest, hp⟩ := startsWithL_of_le pageUpPat (a :: pre')
          ((c0 :: w') ++ post) (by rw [List.append_assoc] at h2; exact h2) hlen
        have hprest_ne : pre_rest ≠ [] := by
          intro habs
          subst habs
          rw [List.append_nil] at hp
          rcases hleft with h | ⟨c, hc, hcw⟩
          · exact List.cons_ne_nil _ _ h
          · rw [hp, show pageUpPat.getLast? = some 'P' from by decide] at hc
            have hcP : c = 'P' := (Option.some.inj hc).symm
            subst hcP
            rcases hcw with hw | hw
            · exact absurd hw (by decide)
            · exact absurd hw (by decide)
        have hl : (a :: pre') ++ (c0 :: w') ++ post =
            pageUpPat ++ (pre_rest ++ (c0 :: w') ++ post) := by
          rw [hp]
          simp
        have hres : replacePage ((a :: pre') ++ (c0 :: w') ++ post) =
            pageUpRep ++ (pre_rest ++ (c0 :: w') ++ post) := by
          rw [show (a :: pre') ++ (c0 :: w') ++ post = a :: (pre' ++ ((c0 :: w') ++ post)) from by
            simp]
          rw [show replacePage (a :: (pre' ++ ((c0 :: w') ++ post))) =
              (if startsWithL pageDownPat (a :: (pre' ++ ((c0 :: w') ++ post))) then
                pageDownRep ++ (a :: (pre' ++ ((c0 :: w') ++ post))).drop pageDownPat.length
              else if startsWithL pageUpPat (a :: (pre' ++ ((c0 :: w') ++ post))) then
                pageUpRep ++ (a :: (pre' ++ ((c0 :: w') ++ post))).drop pageUpPat.length
              else a :: replacePage (pre' ++ ((c0 :: w') ++ post))) from rfl]
          rw [if_neg (by rw [show a :: (pre' ++ ((c0 :: w') ++ post)) =
            (a :: pre') ++ (c0 :: w') ++ post from by simp]; exact fun hx => h1 hx)]
          rw [if_pos (by rw [show a :: (pre' ++ ((c0 :: w') ++ post)) =
            (a :: pre') ++ (c0 :: w') ++ post from by simp]; exact h2)]
          rw [show a :: (pre' ++ ((c0 :: w') ++ post)) =
            pageUpPat ++ (pre_rest ++ (c0 :: w') ++ post) from by
              rw [show a :: (pre' ++ ((c0 :: w') ++ post)) =
                (a :: pre') ++ (c0 :: w') ++ post from by simp]
              exact hl]
          rw [List.drop_left]
        refine ⟨pageUpRep ++ pre_rest, post, by rw [hres]; simp, ?_, ?_⟩
        · rcases hleft with h | ⟨c, hc, hcw⟩
          · exact absurd h (List.cons_ne_nil _ _)
          · refine Or.inr ⟨c, ?_, hcw⟩
            rw [getLast?_append_ne pageUpRep pre_rest hprest_ne]
            rw [hp, getLast?_append_ne pageUpPat pre_rest hprest_ne] at hc
            exact hc
        · intro habs
          exact absurd habs (by simp [pageUpRep])
      · have hleft' : leftOK pre' := by
          by_cases hpre' : pre' = []
          · exact Or.inl hpre'
          · exact leftOK_tail a pre' hleft hpre'
        obtain ⟨pre2', post2', heq, hl2, hconj⟩ := ih post hleft'
        have hres : replacePage ((a :: pre') ++ (c0 :: w') ++ post) =
            a :: replacePage (pre' ++ (c0 :: w') ++ post) := by
          rw [show (a :: pre') ++ (c0 :: w') ++ post = a :: (pre' ++ ((c0 :: w') ++ post)) from by
            simp]
          rw [show replacePage (a :: (pre' ++ ((c0 :: w') ++ post))) =
              (if startsWithL pageDownPat (a :: (pre' ++ ((c0 :: w') ++ post))) then
                pageDownRep ++ (a :: (pre' ++ ((c0 :: w') ++ post))).drop pageDownPat.length
              else if startsWithL pageUpPat (a :: (pre' ++ ((c0 :: w') ++ post))) then
                pageUpRep ++ (a :: (pre' ++ ((c0 :: w') ++ post))).drop pageUpPat.length
              else a :: replacePage (pre' ++ ((c0 :: w') ++ post))) from rfl]
          rw [if_neg (by rw [show a :: (pre' ++ ((c0 :: w') ++ post)) =
            (a :: pre') ++ (c0 :: w') ++ post from by simp]; exact fun hx => h1 hx)]
          rw [if_neg (by rw [show a :: (pre' ++ ((c0 :: w') ++ post)) =
            (a :: pre') ++ (c0 :: w') ++ post from by simp]; exact fun hx => h2 hx)]
          rw [show pre' ++ ((c0 :: w') ++ post) = pre' ++ (c0 :: w') ++ post from by simp]
        refine ⟨a :: pre2', post2', by rw [hres, heq]; rfl, ?_, fun habs =>
          absurd habs (List.cons_ne_nil _ _)⟩
        by_cases hp2 : pre2' = []
        · subst hp2
          have : pre' = [] := hconj rfl
          subst this
          exact hleft
        · exact leftOK_cons a pre2' hl2 hp2

theorem replacePlusFirst_trackLeft (c0 : Char) (w' : List Char)
    (hplus : ∀ c ∈ c0 :: w', c ≠ '+') :
    ∀ (pre post : List Char), leftOK pre →
      ∃ pre2 post2, replacePlusFirst (pre ++ (c0 :: w') ++ post) = pre2 ++ (c0 :: w') ++ post2
        ∧ leftOK pre2 ∧ (pre2 = [] → pre = []) := by
  intro pre
  induction pre with
  | nil =>
    intro post _
    refine ⟨[], replacePlusFirst post, ?_, Or.inl rfl, fun _ => rfl⟩
    simpa using replacePlusFirst_skip (c0 :: w') post hplus
  | cons a pre' ih =>
    intro post hleft
    by_cases ha : a = '+'
    · subst ha
      refine ⟨'_' :: pre', post, ?_, ?_, fun habs => absurd habs (List.cons_ne_nil _ _)⟩
      · rw [show ('+' :: pre') ++ (c0 :: w') ++ post =
          '+' :: (pre' ++ ((c0 :: w') ++ post)) from by simp]
        rw [show replacePlusFirst ('+' :: (pre' ++ ((c0 :: w') ++ post))) =
          '_' :: (pre' ++ ((c0 :: w') ++ post)) from by simp [replacePlusFirst]]
        simp
      · by_cases hpre' : pre' = []
        · subst hpre'
          exact Or.inr ⟨'_', rfl, Or.inr rfl⟩
        · rcases hleft with h | ⟨c, hc, hcw⟩
          · exact absurd h (List.cons_ne_nil _ _)
          · rw [getLast?_cons_ne '+' pre' hpre'] at hc
            exact Or.inr ⟨c, by rw [getLast?_cons_ne '_' pre' hpre']; exact hc, hcw⟩
    · have hleft' : leftOK pre' := by
        by_cases hpre' : pre' = []
        · exact Or.inl hpre'
        · exact leftOK_tail a pre' hleft hpre'
      obtain ⟨pre2', post2', heq, hl2, hconj⟩ := ih post hleft'
      have hres : replacePlusFirst ((a :: pre') ++ (c0 :: w') ++ post) =
          a :: replacePlusFirst (pre' ++ (c0 :: w') ++ post) := by
        rw [show (a :: pre') ++ (c0 :: w') ++ post =
          a :: (pre' ++ ((c0 :: w') ++ post)) from by simp]
        rw [show replacePlusFirst (a :: (pre' ++ ((c0 :: w') ++ post))) =
          (if a = '+' then '_' :: (pre' ++ ((c0 :: w') ++ post))
            else a :: replacePlusFirst (pre' ++ ((c0 :: w') ++ post))) from rfl]
        rw [if_neg ha]
        rw [show pre' ++ ((c0 :: w') ++ post) = pre' ++ (c0 :: w') ++ post from by simp]
      refine ⟨a :: pre2', post2', by rw [hres, heq]; rfl, ?_,
        fun habs => absurd habs (List.cons_ne_nil _ _)⟩
      by_cases hp2 : pre2' = []
      · subst hp2
        have : pre' = [] := hconj rfl
        subst this
        exact hleft
      · exact leftOK_cons a pre2' hl2 hp2

theorem removeArrow_trackLeft (c0 : Char) (w' : List Char)
    (harrow : ∀ c ∈ c0 :: w', c ∉ arrowPat) (hnous : ∀ c ∈ c0 :: w', c ≠ '_') :
    ∀ (n : Nat) (pre post : List Char), pre.length ≤ n → leftOK pre →
      ∃ pre2 post2, removeArrow (pre ++ (c0 :: w') ++ post) = pre2 ++ (c0 :: w') ++ post2
        ∧ leftOK pre2
        ∧ (pre2 = [] → pre = [] ∨ pre.getLast? = some 'W') := by
  intro n
  induction n with
  | zero =>
    intro pre post hlen hleft
    have hnil : pre = [] := List.length_eq_zero.mp (Nat.le_zero.mp hlen)
    subst hnil
    refine ⟨[], removeArrow post, ?_, Or.inl rfl, fun _ => Or.inl rfl⟩
    simpa using removeArrow_skip (c0 :: w') post hnous
  | succ n ih =>
    intro pre post hlen hleft
    cases pre with
    | nil =>
      refine ⟨[], removeArrow post, ?_, Or.inl rfl, fun _ => Or.inl rfl⟩
      simpa using removeArrow_skip (c0 :: w') post hnous
    | cons a pre' =>
      by_cases h1 : startsWithL arrowPat ((a :: pre') ++ (c0 :: w') ++ post) = true
      · have hlenp : arrowPat.length ≤ (a :: pre').length := by
          by_contra hlt
          push_neg at hlt
          exact absurd (startsWithL_overlap arrowPat (a :: pre') c0 (w' ++ post)
            (by rw [show (a :: pre') ++ (c0 :: w') ++ post =
              (a :: pre') ++ (c0 :: (w' ++ post)) from by simp] at h1; exact h1) hlt)
            (harrow c0 (List.mem_cons_self _ _))
        obtain ⟨pre_rest, hp⟩ := startsWithL_of_le arrowPat (a :: pre')
          ((c0 :: w') ++ post) (by rw [List.append_assoc] at h1; exact h1) hlenp
        have hres : removeArrow ((a :: pre') ++ (c0 :: w') ++ post) =
            removeArrow (pre_rest ++ (c0 :: w') ++ post) := by
          rw [show (a :: pre') ++ (c0 :: w') ++ post =
            a :: (pre' ++ ((c0 :: w') ++ post)) from by simp]
          rw [removeArrow]
          rw [if_pos (by rw [show a :: (pre' ++ ((c0 :: w') ++ post)) =
            (a :: pre') ++ (c0 :: w') ++ post from by simp]; exact h1)]
          rw [show a :: (pre' ++ ((c0 :: w') ++ post)) =
            arrowPat ++ (pre_rest ++ (c0 :: w') ++ post) from by
              rw [show a :: (pre' ++ ((c0 :: w') ++ post)) =
                (a :: pre') ++ (c0 :: w') ++ post from by simp, hp]
              simp]
          rw [List.drop_left]
        have hprest_len : pre_rest.length ≤ n := by
          have hlc := congrArg List.length hp
          simp only [List.length_cons, List.length_append] at hlc
          have h6 : arrowPat.length = 6 := by decide
          rw [h6] at hlc
          simp only [List.length_cons] at hlen
          omega
        have hleft_rest : leftOK pre_rest := by
          by_cases hpr : pre_rest = []
          · exact Or.inl hpr
          · rcases hleft with h | ⟨c, hc, hcw⟩
            · exact absurd h (List.cons_ne_nil _ _)
            · rw [hp, getLast?_append_ne arrowPat pre_rest hpr] at hc
              exact Or.inr ⟨c, hc, hcw⟩
        obtain ⟨pre2, post2, heq, hl2, hconj⟩ := ih pre_rest post hprest_len hleft_rest
        refine ⟨pre2, post2, by rw [hres]; exact heq, hl2, ?_⟩
        intro habs
        rcases hconj habs with h | h
        · subst h
          rw [List.append_nil] at hp
          right
          rw [hp]
          decide
        · right
          rw [hp, getLast?_append_ne arrowPat pre_rest
            (by intro hx; rw [hx] at h; simp at h)]
          exact h
      · have hleft' : leftOK pre' := by
          by_cases hpre' : pre' = []
          · exact Or.inl hpre'
          · exact leftOK_tail a pre' hleft hpre'
        have hlen' : pre'.length ≤ n := by
          simp only [List.length_cons] at hlen
          omega
        obtain ⟨pre2', post2', heq, hl2, hconj⟩ := ih pre' post hlen' hleft'
        have hres : removeArrow ((a :: pre') ++ (c0 :: w') ++ post) =
            a :: removeArrow (pre' ++ (c0 :: w') ++ post) := by
          rw [show (a :: pre') ++ (c0 :: w') ++ post =
            a :: (pre' ++ ((c0 :: w') ++ post)) from by simp]
          rw [removeArrow]
          rw [if_neg (by rw [show a :: (pre' ++ ((c0 :: w') ++ post)) =
            (a :: pre') ++ (c0 :: w') ++ post from by simp]; exact fun hx => h1 hx)]
          rw [show pre' ++ ((c0 :: w') ++ post) = pre' ++ (c0 :: w') ++ post from by simp]
        refine ⟨a :: pre2', post2', by rw [hres, heq]; rfl, ?_,
          fun habs => absurd habs (List.cons_ne_nil _ _)⟩
        by_cases hp2 : pre2' = []
        · rcases hconj hp2 with h | h
          · subst h
            subst hp2
            exact hleft
          · exfalso
            rcases hleft with hx | ⟨c, hc, hcw⟩
            · exact List.cons_ne_nil _ _ hx
            · rw [getLast?_cons_ne a pre' (by intro hy; rw [hy] at h; simp at h), h] at hc
              have hcW : c = 'W' := (Option.some.inj hc).symm
              subst hcW
              rcases hcw with hw | hw
              · exact absurd hw (by decide)
              · exact absurd hw (by decide)
        · exact leftOK_cons a pre2' hl2 hp2

theorem splitDelims_ne_nil : ∀ l : List Char, splitDelims l ≠ [] := by
  intro l
  cases l with
  | nil => simp [splitDelims]
  | cons c cs =>
    by_cases h : isDelim c = true
    · simp [splitDelims, h]
    · cases hs : splitDelims cs with
      | nil => simp [splitDelims, h, hs]
      | cons p ps => simp [splitDelims, h, hs]

theorem splitDelims_nodelim_append : ∀ (u rest : List Char),
    (∀ c ∈ u, isDelim c = false) →
    splitDelims (u ++ rest) =
      (u ++ (splitDelims rest).headD []) :: (splitDelims rest).tail := by
  intro u
  induction u with
  | nil =>
    intro rest _
    cases hs : splitDelims rest with
    | nil => exact absurd hs (splitDelims_ne_nil rest)
    | cons p ps => rw [List.nil_append, hs]; simp
  | cons c u' ih =>
    intro rest hu
    have hc : isDelim c = false := hu c (List.mem_cons_self _ _)
    rw [List.cons_append]
    rw [show splitDelims (c :: (u' ++ rest)) =
      (match splitDelims (u' ++ rest) with
       | [] => [[c]]
       | p :: ps => (c :: p) :: ps) from by simp [splitDelims, hc]]
    rw [ih rest (fun x hx => hu x (List.mem_cons_of_mem _ hx))]
    simp

theorem splitDelims_delim_append : ∀ (x : List Char) (d : Char) (y : List Char),
    isDelim d = true →
    splitDelims (x ++ d :: y) = splitDelims x ++ splitDelims y := by
  intro x
  induction x with
  | nil => intro d y hd; simp [splitDelims, hd]
  | cons c x' ih =>
    intro d y hd
    by_cases hc : isDelim c = true
    · rw [List.cons_append]
      rw [show splitDelims (c :: (x' ++ d :: y)) = [] :: splitDelims (x' ++ d :: y) from by
        simp [splitDelims, hc]]
      rw [ih d y hd]
      rw [show splitDelims (c :: x') = [] :: splitDelims x' from by simp [splitDelims, hc]]
      rfl
    · rw [List.cons_append]
      rw [show splitDelims (c :: (x' ++ d :: y)) =
        (match splitDelims (x' ++ d :: y) with
         | [] => [[c]]
         | p :: ps => (c :: p) :: ps) from by simp [splitDelims, hc]]
      rw [ih d y hd]
      cases hs : splitDelims x' with
      | nil => exact absurd hs (splitDelims_ne_nil x')
      | cons p ps =>
        rw [show splitDelims (c :: x') = (c :: p) :: ps from by simp [splitDelims, hc, hs]]
        simp

theorem last_delim_decomp : ∀ (pre : List Char),
    (∀ c ∈ pre, isDelim c = false)
    ∨ ∃ α d β, pre = α ++ d :: β ∧ isDelim d = true ∧ ∀ c ∈ β, isDelim c = false := by
  intro pre
  induction pre with
  | nil => exact Or.inl (by simp)
  | cons c pre' ih =>
    rcases ih with h | ⟨α, d, β, heq, hd, hβ⟩
    · by_cases hc : isDelim c = true
      · exact Or.inr ⟨[], c, pre', by simp, hc, h⟩
      · refine Or.inl ?_
        intro x hx
        rcases List.mem_cons.mp hx with h1 | h1
        · rw [h1]
          exact Bool.not_eq_true _ ▸ hc
        · exact h x h1
    · exact Or.inr ⟨c :: α, d, β, by rw [heq]; rfl, hd, hβ⟩

theorem getLast?_mem : ∀ (l : List Char) (c : Char), l.getLast? = some c → c ∈ l := by
  intro l
  induction l with
  | nil => intro c h; simp at h
  | cons a l' ih =>
    intro c h
    by_cases hl : l' = []
    · subst hl
      simp only [List.getLast?_singleton] at h
      simp [Option.some.inj h]
    · rw [getLast?_cons_ne a l' hl] at h
      exact List.mem_cons_of_mem _ (ih c h)

theorem split_has_good_part (c0 : Char) (w' : List Char)
    (hnodelim : ∀ c ∈ c0 :: w', isDelim c = false) :
    ∀ (pre post : List Char), leftOK pre →
      ∃ p ∈ splitDelims (pre ++ (c0 :: w') ++ post),
        (∃ post2, p = (c0 :: w') ++ post2)
        ∨ (∃ q post2, p = q ++ (c0 :: w') ++ post2 ∧ ∃ c ∈ q, isWordChar c = false) := by
  intro pre post hleft
  rcases last_delim_decomp pre with hfree | ⟨α, d, β, heq, hd, hβ⟩
  · have hsplit := splitDelims_nodelim_append (pre ++ (c0 :: w')) post
      (fun c hc => (List.mem_append.mp hc).elim (hfree c) (hnodelim c))
    refine ⟨(pre ++ (c0 :: w')) ++ (splitDelims post).headD [],
      by rw [hsplit]; exact List.mem_cons_self _ _, ?_⟩
    by_cases hpre : pre = []
    · subst hpre
      exact Or.inl ⟨(splitDelims post).headD [], by simp⟩
    · right
      refine ⟨pre, (splitDelims post).headD [], by simp, ?_⟩
      rcases hleft with h | ⟨c, hc, hcw⟩
      · exact absurd h hpre
      · refine ⟨c, getLast?_mem pre c hc, ?_⟩
        rcases hcw with hw | hw
        · exact hw
        · exfalso
          rw [hw] at hc
          have := hfree '_' (getLast?_mem pre '_' hc)
          simp [isDelim] at this
  · subst heq
    rw [show (α ++ d :: β) ++ (c0 :: w') ++ post = α ++ d :: (β ++ (c0 :: w') ++ post) from by
      simp]
    rw [splitDelims_delim_append α d _ hd]
    have hsplit := splitDelims_nodelim_append (β ++ (c0 :: w')) post
      (fun c hc => (List.mem_append.mp hc).elim (hβ c) (hnodelim c))
    rw [show β ++ (c0 :: w') ++ post = (β ++ (c0 :: w')) ++ post from by simp] at hsplit ⊢
    rw [hsplit]
    refine ⟨(β ++ (c0 :: w')) ++ (splitDelims post).headD [],
      List.mem_append_right _ (List.mem_cons_self _ _), ?_⟩
    by_cases hβnil : β = []
    · subst hβnil
      exact Or.inl ⟨(splitDelims post).headD [], by simp⟩
    · right
      refine ⟨β, (splitDelims post).headD [], by simp, ?_⟩
      rcases hleft with h | ⟨c, hc, hcw⟩
      · exact absurd h (by simp)
      · rw [getLast?_append_ne α (d :: β) (List.cons_ne_nil _ _)] at hc
        rw [getLast?_cons_ne d β hβnil] at hc
        refine ⟨c, getLast?_mem β c hc, ?_⟩
        rcases hcw with hw | hw
        · exact hw
        · exfalso
          rw [hw] at hc
          have := hβ '_' (getLast?_mem β '_' hc)
          simp [isDelim] at this

theorem toUpper_nonword (c : Char) (h : isWordChar c = false) : c.toUpper = c := by
  simp only [isWordChar, Bool.or_eq_false_iff, decide_eq_false_iff_not] at h
  have halpha : c.isAlpha = false := h.1.1
  unfold Char.toUpper
  rw [if_neg]
  intro ⟨h97, h122⟩
  have hla : c.isAlpha = true := by
    simp [Char.isAlpha, Char.isLower]
    right
    exact ⟨h97, h122⟩
  rw [hla] at halpha
  exact Bool.true_eq_false.mp halpha

theorem startsWithL_refl_append : ∀ (u v : List Char), startsWithL u (u ++ v) = true := by
  intro u
  induction u with
  | nil => intro v; rfl
  | cons c u' ih => intro v; simp [startsWithL, ih]

theorem table_keys_word : ∀ e ∈ webDriverCodePoints, ∀ c ∈ e.1, isWordChar c = true := by
  decide

theorem lookup_none_of_nonword (k : List Char) (c : Char) (hc : c ∈ k)
    (hw : isWordChar c = false) : lookupCodePoint k = none := by
  have hnone : webDriverCodePoints.find? (fun e => e.1 == k) = none := by
    rw [List.find?_eq_none]
    intro e he
    simp only [beq_iff_eq]
    intro habs
    have hmem : c ∈ e.1 := by rw [habs]; exact hc
    rw [table_keys_word e he c hmem] at hw
    exact Bool.true_eq_false.mp hw
  unfold lookupCodePoint
  rw [hnone]
  rfl

theorem lookup_none_of_prefix (u v : List Char)
    (hpre : ∀ e ∈ webDriverCodePoints, startsWithL u e.1 = false) :
    lookupCodePoint (u ++ v) = none := by
  have hnone : webDriverCodePoints.find? (fun e => e.1 == u ++ v) = none := by
    rw [List.find?_eq_none]
    intro e he
    simp only [beq_iff_eq]
    intro habs
    have hstart : startsWithL u e.1 = true := by
      rw [habs]
      exact startsWithL_refl_append u v
    rw [hpre e he] at hstart
    exact Bool.false_eq_true.mp hstart
  unfold lookupCodePoint
  rw [hnone]
  rfl

theorem partHasError_of_good (c0 : Char) (w' : List Char) (hw' : w' ≠ [])
    (hpre : ∀ e ∈ webDriverCodePoints, startsWithL (toUpperL (c0 :: w')) e.1 = false)
    (p : List Char)
    (hgood : (∃ post2, p = (c0 :: w') ++ post2)
      ∨ (∃ q post2, p = q ++ (c0 :: w') ++ post2 ∧ ∃ c ∈ q, isWordChar c = false)) :
    partHasError p = true := by
  have hwlen : 0 < w'.length := List.length_pos.mpr hw'
  unfold partHasError
  rcases hgood with ⟨post2, rfl⟩ | ⟨q, post2, rfl, c, hcq, hcw⟩
  · rw [Bool.and_eq_true]
    refine ⟨?_, ?_⟩
    · simp only [decide_eq_true_eq, List.length_append, List.length_cons]
      omega
    · rw [Option.isNone_iff_eq_none]
      rw [show toUpperL ((c0 :: w') ++ post2) = toUpperL (c0 :: w') ++ toUpperL post2 from by
        simp [toUpperL]]
      exact lookup_none_of_prefix _ _ hpre
  · rw [Bool.and_eq_true]
    refine ⟨?_, ?_⟩
    · simp only [decide_eq_true_eq, List.length_append, List.length_cons]
      omega
    · rw [Option.isNone_iff_eq_none]
      refine lookup_none_of_nonword _ c.toUpper ?_ ?_
      · simp only [toUpperL, List.map_append, List.mem_append]
        exact Or.inl (Or.inl (List.mem_map_of_mem _ hcq))
      · rw [toUpper_nonword c hcw]
        exact hcw

theorem errorsForId_ne_nil_of_part (id p : List Char)
    (hp : p ∈ splitDelims (transformId id)) (he : partHasError p = true) :
    errorsForId id ≠ [] := by
  simp only [errorsForId]
  intro habs
  simp only [List.append_eq_nil] at habs
  have hmap := habs.2
  rw [List.map_eq_nil_iff] at hmap
  have : p ∈ ([] : List (List Char)) := by
    rw [← hmap]
    exact List.mem_filter.mpr ⟨hp, he⟩
  simp at this

theorem replacePage_mem (c : Char) (hc : c ≠ '_') : ∀ l, c ∈ l → c ∈ replacePage l := by
  intro l
  induction l using replacePage.induct with
  | case1 => intro h; simp at h
  | case2 a cs h1 =>
    intro h
    have hdec := startsWithL_decomp pageDownPat (a :: cs) h1
    rw [hdec] at h
    rw [show replacePage (a :: cs) = pageDownRep ++ (a :: cs).drop pageDownPat.length from by
      rw [replacePage, if_pos h1]]
    rcases List.mem_append.mp h with h2 | h2
    · have hmv : ∀ x ∈ pageDownPat, x ≠ '_' → x ∈ pageDownRep := by decide
      exact List.mem_append_left _ (hmv c h2 hc)
    · exact List.mem_append_right _ h2
  | case3 a cs h1 h2 =>
    intro h
    have hdec := startsWithL_decomp pageUpPat (a :: cs) h2
    rw [hdec] at h
    rw [show replacePage (a :: cs) = pageUpRep ++ (a :: cs).drop pageUpPat.length from by
      rw [replacePage, if_neg (by simp [h1]), if_pos h2]]
    rcases List.mem_append.mp h with h3 | h3
    · have hmv : ∀ x ∈ pageUpPat, x ≠ '_' → x ∈ pageUpRep := by decide
      exact List.mem_append_left _ (hmv c h3 hc)
    · exact List.mem_append_right _ h3
  | case4 a cs h1 h2 ih =>
    intro h
    rw [show replacePage (a :: cs) = a :: replacePage cs from by
      rw [replacePage, if_neg (by simp [h1]), if_neg (by simp [h2])]]
    rcases List.mem_cons.mp h with h3 | h3
    · rw [h3]; exact List.mem_cons_self _ _
    · exact List.mem_cons_of_mem _ (ih h3)

theorem replacePlusFirst_mem (c : Char) (hc : c ≠ '+') :
    ∀ l, c ∈ l → c ∈ replacePlusFirst l := by
  intro l
  induction l with
  | nil => intro h; simp at h
  | cons a cs ih =>
    intro h
    by_cases ha : a = '+'
    · subst ha
      rw [show replacePlusFirst ('+' :: cs) = '_' :: cs from by simp [replacePlusFirst]]
      rcases List.mem_cons.mp h with h3 | h3
      · exact absurd h3 hc
      · exact List.mem_cons_of_mem _ h3
    · rw [show replacePlusFirst (a :: cs) = a :: replacePlusFirst cs from by
        simp [replacePlusFirst, ha]]
      rcases List.mem_cons.mp h with h3 | h3
      · rw [h3]; exact List.mem_cons_self _ _
      · exact List.mem_cons_of_mem _ (ih h3)

theorem removeArrow_mem (c : Char) (hc : c ∉ arrowPat) :
    ∀ l, c ∈ l → c ∈ removeArrow l := by
  intro l
  induction l using removeArrow.induct with
  | case1 => intro h; simp at h
  | case2 a cs h1 ih =>
    intro h
    have hdec := startsWithL_decomp arrowPat (a :: cs) h1
    rw [hdec] at h
    rw [show removeArrow (a :: cs) = removeArrow ((a :: cs).drop arrowPat.length) from by
      rw [removeArrow, if_pos h1]]
    rcases List.mem_append.mp h with h2 | h2
    · exact absurd h2 hc
    · exact ih h2
  | case3 a cs h1 ih =>
    intro h
    rw [show removeArrow (a :: cs) = a :: removeArrow cs from by
      rw [removeArrow, if_neg (by simp [h1])]]
    rcases List.mem_cons.mp h with h3 | h3
    · rw [h3]; exact List.mem_cons_self _ _
    · exact List.mem_cons_of_mem _ (ih h3)

theorem transformId_mem (c : Char) (hund : c ≠ '_') (hplus : c ≠ '+')
    (harr : c ∉ arrowPat) (id : List Char) (h : c ∈ id) : c ∈ transformId id := by
  unfold transformId
  exact removeArrow_mem c harr _ (replacePlusFirst_mem c hplus _ (replacePage_mem c hund _ h))

theorem errorsForId_ne_nil_of_slash (id : List Char) (h : '/' ∈ id) :
    errorsForId id ≠ [] := by
  have hmem : '/' ∈ transformId id :=
    transformId_mem '/' (by decide) (by decide) (by decide) id h
  have hcon : (transformId id).contains '/' = true := by simpa using hmem
  simp only [errorsForId, hcon, if_true]
  simp

theorem errorsForId_ne_nil_of_paren (id : List Char) (h : '(' ∈ id ∨ ')' ∈ id) :
    errorsForId id ≠ [] := by
  have hcon : ((transformId id).contains '(' || (transformId id).contains ')') = true := by
    rcases h with h | h
    · have : '(' ∈ transformId id :=
        transformId_mem '(' (by decide) (by decide) (by decide) id h
      simp [this]
    · have : ')' ∈ transformId id :=
        transformId_mem ')' (by decide) (by decide) (by decide) id h
      simp [this]
  simp only [errorsForId, hcon, if_true]
  intro habs
  simp only [List.append_eq_nil] at habs
  exact List.cons_ne_nil _ _ habs.1.1.1.2

theorem errorsForId_ne_nil_of_word (c0 : Char) (w' : List Char)
    (hpd : ∀ c ∈ c0 :: w', c ∉ pageDownPat) (hpu : ∀ c ∈ c0 :: w', c ∉ pageUpPat)
    (harrow : ∀ c ∈ c0 :: w', c ∉ arrowPat) (hplus : ∀ c ∈ c0 :: w', c ≠ '+')
    (hnodelim : ∀ c ∈ c0 :: w', isDelim c = false) (hw' : w' ≠ [])
    (hpre : ∀ e ∈ webDriverCodePoints, startsWithL (toUpperL (c0 :: w')) e.1 = false)
    (id : List Char) (h : containsWord (c0 :: w') id) : errorsForId id ≠ [] := by
  obtain ⟨pre, post, rfl, hL, hR⟩ := h
  have hleft0 : leftOK pre := by
    rcases hL with hn | ⟨c, hc, hcw⟩
    · exact Or.inl hn
    · exact Or.inr ⟨c, hc, Or.inl hcw⟩
  obtain ⟨pre1, post1, heq1, hl1, -⟩ := replacePage_trackLeft c0 w' hpd hpu pre post hleft0
  obtain ⟨pre2, post2, heq2, hl2, -⟩ := replacePlusFirst_trackLeft c0 w' hplus pre1 post1 hl1
  obtain ⟨pre3, post3, heq3, hl3, -⟩ := removeArrow_trackLeft c0 w' harrow
    (fun c hcm => by
      have hd := hnodelim c hcm
      intro hx
      rw [hx] at hd
      simp [isDelim] at hd)
    pre2.length pre2 post2 (Nat.le_refl _) hl2
  have htid : transformId (pre ++ (c0 :: w') ++ post) = pre3 ++ (c0 :: w') ++ post3 := by
    unfold transformId
    rw [heq1, heq2, heq3]
  obtain ⟨p, hpmem, hgood⟩ := split_has_good_part c0 w' hnodelim pre3 post3 hl3
  rw [← htid] at hpmem
  exact errorsForId_ne_nil_of_part _ p hpmem (partHasError_of_good c0 w' hw' hpre p hgood)

/-- C6: for every Command any of whose keypress ids contains the character
slash, an opening or closing parenthesis, the word or, or the word followed,
validation returns errors and never a validated Command. -/
theorem validate_rejects_ambiguous_ids (command : Command)
    (h : ∃ kp ∈ command.keypresses,
      '/' ∈ kp.id ∨ '(' ∈ kp.id ∨ ')' ∈ kp.id
        ∨ containsWord orWord kp.id ∨ containsWord followedWord kp.id) :
    ∃ es, validateKeysFromCommand command = ⟨none, some es⟩ ∧ es ≠ [] := by
  obtain ⟨kp, hkp, hcase⟩ := h
  have hne : errorsForId kp.id ≠ [] := by
    rcases hcase with h1 | h1 | h1 | h1 | h1
    · exact errorsForId_ne_nil_of_slash _ h1
    · exact errorsForId_ne_nil_of_paren _ (Or.inl h1)
    · exact errorsForId_ne_nil_of_paren _ (Or.inr h1)
    · exact errorsForId_ne_nil_of_word 'o' ['r'] (by decide) (by decide) (by decide)
        (by decide) (by decide) (by decide) (by decide) _ h1
    · exact errorsForId_ne_nil_of_word 'f' "ollowed".toList (by decide) (by decide) (by decide)
        (by decide) (by decide) (by decide) (by decide) _ h1
  have hflat : command.keypresses.flatMap (fun kp => errorsForId kp.id) ≠ [] := by
    intro habs
    rw [List.flatMap_eq_nil_iff] at habs
    exact hne (habs kp hkp)
  refine ⟨command.keypresses.flatMap (fun kp => errorsForId kp.id), ?_, hflat⟩
  unfold validateKeysFromCommand
  rw [foldl_append_eq_flatMap, List.nil_append]
  rw [if_pos (List.length_pos.mpr hflat)]

/-- Witness for C6: one id containing a slash, and one in which the word or is
only exposed after the plus sign is rewritten to an underscore. -/
theorem validate_rejects_ambiguous_ids_witness :
    (validateKeysFromCommand ⟨"w1", [⟨"x/y".toList⟩], none⟩).value = none
    ∧ (validateKeysFromCommand ⟨"w2", [⟨"a+or".toList⟩], none⟩).value = none := by
  constructor
  · obtain ⟨es, heq, -⟩ := validate_rejects_ambiguous_ids ⟨"w1", [⟨"x/y".toList⟩], none⟩
      ⟨⟨"x/y".toList⟩, by simp, Or.inl (by decide)⟩
    rw [heq]
  · obtain ⟨es, heq, -⟩ := validate_rejects_ambiguous_ids ⟨"w2", [⟨"a+or".toList⟩], none⟩
      ⟨⟨"a+or".toList⟩, by simp, Or.inr (Or.inr (Or.inr (Or.inl
        ⟨"a+".toList, [], by decide, Or.inr ⟨'+', by decide, by decide⟩, Or.inl rfl⟩)))⟩
    rw [heq]

end AriaAT
